import Mathlib

/-!
Shallow embedding of the BIZMAP repository (a Next.js CSV geocoding and
zip-metrics app) together with proofs about its core pure logic.

Strings are modelled as Lean `String`/`List Char`.  JavaScript regular
expression constructs used by the code (character classes `\s`, `\d`, `\w`,
word boundaries `\b`, global case-insensitive replacement) are embedded as
explicit executable scanners over `List Char`, written to mirror the
left-to-right, non-overlapping semantics of `String.prototype.replace` and
`String.prototype.match`.  JavaScript numbers are modelled exactly
(rationals extended with NaN and signed infinities); floating-point
rounding is not modelled, which is irrelevant for the properties proved
here.  Case-insensitive matching is modelled with ASCII lowercasing, which
coincides with the JavaScript behaviour on all ASCII inputs.
-/

/-! ## JavaScript character classes and small string utilities -/

/-- JavaScript `\s` (whitespace) class, restricted to the common members.
Used by `replace(/\s+/g, " ")`, `trim()`, and friends. -/
def jsWs (c : Char) : Bool :=
  c == ' ' || c == '\t' || c == '\n' || c == '\x0d' || c == '\x0b' ||
  c == '\x0c' || c == '\u00A0' || c == '\u2028' || c == '\u2029' || c == '\uFEFF'

/-- JavaScript `\w` (word character) class: `[A-Za-z0-9_]`.  The `\b`
word-boundary assertion tests this class on the two surrounding characters. -/
def jsWord (c : Char) : Bool :=
  (('a' ≤ c && c ≤ 'z') || ('A' ≤ c && c ≤ 'Z') || ('0' ≤ c && c ≤ '9') || c == '_')

/-- ASCII lowercasing of a character list (model of `toLowerCase` /
the `i` regex flag on ASCII input). -/
def lowerL (s : List Char) : List Char := s.map Char.toLower

/-- JavaScript `\d` class: `[0-9]`. -/
def jsDigit (c : Char) : Bool := '0' ≤ c && c ≤ '9'

/-- `needle.isPrefixOf hay` by pointwise character equality. -/
def startsWithSeq : List Char → List Char → Bool
  | _, [] => true
  | [], _ :: _ => false
  | a :: hay, b :: needle => a == b && startsWithSeq hay needle

/-- `String.prototype.includes`: does `needle` occur contiguously in `hay`? -/
def containsSeq : List Char → List Char → Bool
  | [], needle => needle.isEmpty
  | a :: hay, needle => startsWithSeq (a :: hay) needle || containsSeq hay needle

/-- `String.prototype.trim` on character lists (JS whitespace class). -/
def jsTrim (s : List Char) : List Char :=
  ((s.dropWhile jsWs).reverse.dropWhile jsWs).reverse

/-- `String.prototype.padStart(n, c)`. -/
def padStart (s : List Char) (n : Nat) (c : Char) : List Char :=
  List.replicate (n - s.length) c ++ s

/-! ## Report page (`app/report`): `normalizeZip`

```ts
function normalizeZip(z?: any): string {
  if (z == null) return "";
  const m = String(z).match(/\d{3,5}/)?.[0] ?? "";
  return m.padStart(5, "0");
}
```
The input is modelled as `Option String`: `none` is `null`/`undefined`
(the `z == null` branch), `some s` is any other value after `String(z)`. -/

/-- First match of `/\d{3,5}/`: scan left to right; at the first position
where at least three consecutive digits start, take greedily up to five. -/
def firstDigitRun : List Char → Option (List Char)
  | [] => none
  | c :: t =>
    let run := (c :: t).takeWhile jsDigit
    if run.length ≥ 3 then some (run.take 5) else firstDigitRun t

/-- `normalizeZip` from the report page. -/
def normalizeZip (z : Option String) : String :=
  match z with
  | none => ""
  | some s =>
    let m : List Char := (firstDigitRun s.data).getD []
    ⟨padStart m 5 '0'⟩

/-- Decidable form of "contains a run of at least 3 consecutive digits"
(equivalently, a run of 3 to 5 consecutive digits occurs as a substring). -/
def hasThreeDigitRun : List Char → Bool
  | d1 :: d2 :: d3 :: t =>
    (jsDigit d1 && jsDigit d2 && jsDigit d3) || hasThreeDigitRun (d2 :: d3 :: t)
  | _ => false

/-! ## `lib/addresses.ts`: `isFullAddressHeader`

```ts
const normalizedHeader = header.toLowerCase().replace(/[\s_-]/g, '');
const fullAddressVariants = ['fulladdress','address','addr','streetaddress','location','address1'];
return fullAddressVariants.some(variant =>
  normalizedHeader.includes(variant) || variant.includes(normalizedHeader));
```
-/

/-- Header normalization: lowercase, then delete `[\s_-]` characters. -/
def normalizeHeader (header : String) : List Char :=
  (lowerL header.data).filter (fun c => !(jsWs c || c == '_' || c == '-'))

/-- The six full-address header variants. -/
def fullAddressVariants : List (List Char) :=
  ["fulladdress".data, "address".data, "addr".data,
   "streetaddress".data, "location".data, "address1".data]

/-- `isFullAddressHeader` from `lib/addresses.ts`. -/
def isFullAddressHeader (header : String) : Bool :=
  fullAddressVariants.any fun variant =>
    containsSeq (normalizeHeader header) variant ||
    containsSeq variant (normalizeHeader header)

/-- Substring containment as a proposition: `needle` occurs contiguously
inside `hay`. -/
def SeqContains (hay needle : List Char) : Prop :=
  ∃ pre post, hay = pre ++ needle ++ post

/-! ## JavaScript numbers

`JsNum` models a JavaScript number exactly: a rational, NaN, or a signed
infinity.  Floating-point rounding is not modelled.  The arithmetic and
comparison operations below follow the IEEE/ECMAScript rules on these
values (`NaN` compares false with everything, `x/0` is a signed infinity
for `x != 0` and NaN for `0/0`, ...). -/

inductive JsNum where
  | nan
  | posInf
  | negInf
  | fin (q : ℚ)
deriving DecidableEq, Repr

/-- `Number.isNaN`. -/
def JsNum.isNaN : JsNum → Bool
  | .nan => true
  | _ => false

/-- `Number.isFinite`. -/
def JsNum.isFinite : JsNum → Bool
  | .fin _ => true
  | _ => false

/-- The JavaScript comparison `a < b` (false whenever either side is NaN). -/
def JsNum.ltB : JsNum → JsNum → Bool
  | .nan, _ => false
  | _, .nan => false
  | .negInf, .negInf => false
  | .negInf, _ => true
  | _, .negInf => false
  | .posInf, _ => false
  | .fin _, .posInf => true
  | .fin a, .fin b => a < b

/-- The JavaScript comparison `a <= 0` (false when `a` is NaN). -/
def JsNum.leZero : JsNum → Bool
  | .nan => false
  | .posInf => false
  | .negInf => true
  | .fin q => q ≤ 0

/-- The JavaScript comparison `a < 0` (false when `a` is NaN). -/
def JsNum.ltZero : JsNum → Bool
  | .nan => false
  | .posInf => false
  | .negInf => true
  | .fin q => q < 0

/-- JavaScript `!==` on numbers: true whenever either side is NaN. -/
def jsStrictNeq (a b : JsNum) : Bool :=
  a.isNaN || b.isNaN || a != b

/-- JavaScript addition on numbers. -/
def JsNum.add : JsNum → JsNum → JsNum
  | .nan, _ => .nan
  | _, .nan => .nan
  | .posInf, .negInf => .nan
  | .negInf, .posInf => .nan
  | .posInf, _ => .posInf
  | _, .posInf => .posInf
  | .negInf, _ => .negInf
  | _, .negInf => .negInf
  | .fin a, .fin b => .fin (a + b)

/-- JavaScript division on numbers (zeros are unsigned in this model). -/
def JsNum.div : JsNum → JsNum → JsNum
  | .nan, _ => .nan
  | _, .nan => .nan
  | .posInf, .posInf => .nan
  | .posInf, .negInf => .nan
  | .negInf, .posInf => .nan
  | .negInf, .negInf => .nan
  | .posInf, .fin b => if b < 0 then .negInf else .posInf
  | .negInf, .fin b => if b < 0 then .posInf else .negInf
  | .fin _, .posInf => .fin 0
  | .fin _, .negInf => .fin 0
  | .fin a, .fin b =>
    if b = 0 then (if a = 0 then .nan else if a < 0 then .negInf else .posInf)
    else .fin (a / b)

/-- `Math.round`: round to the nearest integer, halves toward positive
infinity (`Math.round x = Math.floor (x + 0.5)` for finite `x`). -/
def jsRound : JsNum → JsNum
  | .nan => .nan
  | .posInf => .posInf
  | .negInf => .negInf
  | .fin q => .fin (⌊q + 1/2⌋ : ℤ)

/-- JavaScript `x || 0` on a number: NaN and 0 are falsy. -/
def orZero (n : JsNum) : JsNum :=
  if n.isNaN || n = .fin 0 then .fin 0 else n

/-! ## `parseFloat`

An exact-rational model of ECMAScript `parseFloat`: skip leading
whitespace, then parse the longest prefix that is a valid decimal literal
(optional sign; `Infinity`; digits with an optional fraction and an
optional well-formed exponent), returning NaN when no prefix parses. -/

/-- Numeric value of a digit string (most significant first). -/
def digitsVal (l : List Char) : Nat :=
  l.foldl (fun a c => a * 10 + (c.toNat - '0'.toNat)) 0

/-- Parse an unsigned decimal literal `digits [. digits] [e/E [sign] digits]`
at the head of `l`; `none` when no digits are present before the exponent. -/
def parseDecimal (l : List Char) : Option ℚ :=
  let d1 := l.takeWhile jsDigit
  let r1 := l.drop d1.length
  let fr : List Char × List Char :=
    match r1 with
    | '.' :: t => (t.takeWhile jsDigit, t.drop (t.takeWhile jsDigit).length)
    | _ => ([], r1)
  let d2 := fr.1
  let r2 := fr.2
  if d1.isEmpty && d2.isEmpty then none
  else
    let mantissa : ℚ := (digitsVal d1 : ℚ) + (digitsVal d2 : ℚ) / ((10 : ℚ) ^ d2.length)
    let expPart : Option ℤ :=
      match r2 with
      | 'e' :: t => parseExpDigits t
      | 'E' :: t => parseExpDigits t
      | _ => none
    match expPart with
    | some e => some (mantissa * (10 : ℚ) ^ e)
    | none => some mantissa
where
  parseExpDigits (t : List Char) : Option ℤ :=
    match t with
    | '+' :: u => if (u.takeWhile jsDigit).isEmpty then none
                  else some (digitsVal (u.takeWhile jsDigit) : ℤ)
    | '-' :: u => if (u.takeWhile jsDigit).isEmpty then none
                  else some (-(digitsVal (u.takeWhile jsDigit) : ℤ))
    | _ => if (t.takeWhile jsDigit).isEmpty then none
           else some (digitsVal (t.takeWhile jsDigit) : ℤ)

/-- ECMAScript `parseFloat`. -/
def jsParseFloat (s : String) : JsNum :=
  let l := s.data.dropWhile jsWs
  let sign : Bool × List Char :=
    match l with
    | '-' :: t => (true, t)
    | '+' :: t => (false, t)
    | _ => (false, l)
  let neg := sign.1
  let body := sign.2
  if startsWithSeq body "Infinity".data then
    if neg then .negInf else .posInf
  else
    match parseDecimal body with
    | none => .nan
    | some q => .fin (if neg then -q else q)

/-! ## Import endpoint (`part_004`): price validation in `validateAndCoerceRow`

```ts
if (!row.price && row.price !== 0) { return { valid:false, error: `...Price is required` }; }
let price: number;
if (typeof row.price === 'string') {
  const cleanPrice = row.price.replace(/[$,]/g, '');
  price = parseFloat(cleanPrice);
} else { price = Number(row.price); }
if (isNaN(price) || price < 0) { return { valid:false, error: `...Invalid price format` }; }
```
-/

/-- The runtime value found in `row.price`: a string, a number, or a
missing value (`undefined`/`null`). -/
inductive PriceValue where
  | pstr (s : String)
  | pnum (n : JsNum)
  | pmissing
deriving DecidableEq

/-- `replace(/[$,]/g, "")`. -/
def stripCurrency (s : String) : String :=
  ⟨s.data.filter (fun c => !(c == '$' || c == ','))⟩

/-- Outcome of the price portion of `validateAndCoerceRow`. -/
inductive PriceCheck where
  | requiredError
  | invalidError
  | valid (price : JsNum)
deriving DecidableEq

/-- The price validation of `validateAndCoerceRow` (`part_004`, lines
30-46).  `!row.price && row.price !== 0` rejects missing values, the empty
string and the number NaN with the required-field error; then a string
price is stripped of `$` and `,` and `parseFloat`ed, and the row is
rejected with the invalid-price error iff `isNaN(price) || price < 0`. -/
def validateAndCoercePrice (v : PriceValue) : PriceCheck :=
  match v with
  | .pmissing => .requiredError
  | .pstr s =>
    if s = "" then .requiredError
    else
      let price := jsParseFloat (stripCurrency s)
      if price.isNaN || price.ltZero then .invalidError else .valid price
  | .pnum n =>
    if n.isNaN then .requiredError
    else if n.ltZero then .invalidError else .valid n

/-! ## Zip-metrics API route (`app/api/zip-metrics/route.ts`)

The aggregation loop of `GET`, over the queried `(zip, price)` pairs.
A job's `zip` is modelled as the string `job.zip.toString()` (the query
excludes null/empty zips, but the `if (!job.zip) return` guard is kept);
`price` is `Option String` (`none` = null/undefined, short-circuiting the
optional chain to the `'0'` fallback). -/

structure ZipEntry where
  jobs : Nat
  sales : JsNum
deriving DecidableEq, Repr

/-- One step of the `jobs.forEach` aggregation: skip falsy zips, normalize
the key with `padStart(5,'0').substring(0,5)`, parse the price with
`parseFloat(stripped || '0') || 0`, then create-or-update the entry. -/
def zipMetricsStep (m : List (String × ZipEntry)) (job : String × Option String) :
    List (String × ZipEntry) :=
  if job.1 = "" then m
  else
    let zip : String := ⟨(padStart job.1.data 5 '0').take 5⟩
    let stripped : String :=
      match job.2 with
      | none => "0"
      | some s => if stripCurrency s = "" then "0" else stripCurrency s
    let price := orZero (jsParseFloat stripped)
    match m.lookup zip with
    | some e => m.map (fun p => if p.1 = zip then (zip, ⟨e.jobs + 1, e.sales.add price⟩) else p)
    | none => m ++ [(zip, ⟨1, price⟩)]

/-- The per-zip `(jobs, sales)` table built by the route's `forEach`. -/
def buildZipMetrics (jobs : List (String × Option String)) : List (String × ZipEntry) :=
  jobs.foldl zipMetricsStep []

/-- The route's second pass: `metrics.avg = metrics.jobs > 0 ? metrics.sales / metrics.jobs : 0`. -/
def finalizeZipMetrics (m : List (String × ZipEntry)) :
    List (String × ZipEntry × JsNum) :=
  m.map (fun p =>
    (p.1, p.2, if 0 < p.2.jobs then p.2.sales.div (.fin p.2.jobs) else .fin 0))

/-! ## Report page (`part_003`): `safeAvg` and the per-zip aggregation -/

/-- `safeAvg` from the report page:
```ts
function safeAvg(sales: number, jobs: number): number {
  if (!jobs || jobs <= 0) return 0;
  return Math.round((sales || 0) / jobs);
}
``` -/
def safeAvg (sales jobs : JsNum) : JsNum :=
  if (jobs = .fin 0 || jobs.isNaN) || jobs.leZero then .fin 0
  else jsRound ((orZero sales).div jobs)

/-- One step of the report page's `dateFilteredRows.forEach` aggregation
(lines 369-386): trim the zip, skip empty zips, parse the price with
`parseFloat((row.price || "").replace(/[$,]/g, "")) || 0`, then
create-or-update the `(jobs, sales)` entry for the zip. -/
def reportAggStep (m : List (String × ZipEntry)) (row : String × String) :
    List (String × ZipEntry) :=
  let zip : String := ⟨jsTrim row.1.data⟩
  if zip = "" then m
  else
    let price := orZero (jsParseFloat (stripCurrency row.2))
    match m.lookup zip with
    | some e => m.map (fun p => if p.1 = zip then (zip, ⟨e.jobs + 1, e.sales.add price⟩) else p)
    | none => m ++ [(zip, ⟨1, price⟩)]

/-- The report page's per-zip rows (lines 388-393): aggregate, then
`avg: safeAvg(stats.sales, stats.jobs)` per entry. -/
def reportZipRows (rows : List (String × String)) :
    List (String × ZipEntry × JsNum) :=
  (rows.foldl reportAggStep []).map (fun p =>
    (p.1, p.2, safeAvg p.2.sales (.fin p.2.jobs)))

/-! ## Report page (`part_003`): `filteredAndSortedZips`

```ts
return filtered.sort((a, b) => {
  let aVal, bVal;
  switch (sortField) { ... }
  if (sortField === "zip") { aVal = String(aVal); bVal = String(bVal); }
  const dir = sortDirection === "asc" ? 1 : -1;
  if (aVal < bVal) return -1 * dir;
  if (aVal > bVal) return 1 * dir;
  if (a.sales !== b.sales) return (a.sales < b.sales ? -1 : 1) * dir;
  return a.zip.localeCompare(b.zip);
});
```
`Array.prototype.sort` with a consistent comparator is modelled by a stable
merge sort ordered by `comparator ≤ 0`; `localeCompare` is modelled as
UTF-16 code-unit comparison (its default behaviour for ASCII digits). -/

/-- A row of the report page's per-zip table. -/
structure ZipRow where
  zip : String
  jobs : JsNum
  sales : JsNum
  avg : JsNum
  jobShare : JsNum
  revenueShare : JsNum
  avgDeltaPct : JsNum
deriving DecidableEq, Repr

/-- The sortable columns of the zip table. -/
inductive SortField where
  | zip | jobs | sales | avg | jobShare | revenueShare
deriving DecidableEq, Repr

/-- Sort direction. -/
inductive SortDirection where
  | asc | desc
deriving DecidableEq, Repr

/-- JavaScript string `<` (lexicographic by code unit). -/
def jsStrLt : List Char → List Char → Bool
  | [], [] => false
  | [], _ :: _ => true
  | _ :: _, [] => false
  | a :: s, b :: t => if a.val < b.val then true else if b.val < a.val then false else jsStrLt s t

/-- `a.localeCompare(b)` modelled as code-unit comparison: negative, zero
or positive. -/
def localeCmp (a b : String) : Int :=
  if jsStrLt a.data b.data then -1 else if jsStrLt b.data a.data then 1 else 0

/-- Strict `<` on the value selected by the sort field (string comparison
for `zip`, JavaScript number comparison otherwise). -/
def fieldLt (f : SortField) (a b : ZipRow) : Bool :=
  match f with
  | .zip => jsStrLt a.zip.data b.zip.data
  | .jobs => a.jobs.ltB b.jobs
  | .sales => a.sales.ltB b.sales
  | .avg => a.avg.ltB b.avg
  | .jobShare => a.jobShare.ltB b.jobShare
  | .revenueShare => a.revenueShare.ltB b.revenueShare

/-- The integer `1` or `-1` for the requested sort direction. -/
def dirInt (d : SortDirection) : Int :=
  match d with
  | .asc => 1
  | .desc => -1

/-- The comparator passed to `filtered.sort` in `filteredAndSortedZips`
(`part_003`, lines 433-468). -/
def compareZipRows (f : SortField) (d : SortDirection) (a b : ZipRow) : Int :=
  if fieldLt f a b then -1 * dirInt d
  else if fieldLt f b a then 1 * dirInt d
  else if jsStrictNeq a.sales b.sales then
    (if a.sales.ltB b.sales then -1 else 1) * dirInt d
  else localeCmp a.zip b.zip

/-- `filteredAndSortedZips`: filter by the zip substring (case-insensitive,
only when the trimmed filter is non-empty), then sort with the comparator. -/
def filteredAndSortedZips (f : SortField) (d : SortDirection) (zipFilter : String)
    (zipStats : List ZipRow) : List ZipRow :=
  let filtered :=
    if jsTrim zipFilter.data ≠ [] then
      zipStats.filter (fun r => containsSeq (lowerL r.zip.data) (lowerL zipFilter.data))
    else zipStats
  filtered.mergeSort (fun a b => compareZipRows f d a b ≤ 0)

/-! ## Upload manager (`app/upload/_hooks/useUploadManager.ts`)

The two client-side batch geocoders.  `geocodeAll` (lines 110-169) is the
concurrency-limited worker-pool pass used by `startUpload`; `geocodeRows`
(lines 235-285) is the sequential pre-insert pass used by `addFiles`.

Concurrency note for `geocodeAll`: the workers claim indices through a
shared cursor and each writes only its own slot of the pre-sized output
array (`out[idx] = ...`), reading `out[idx]` before any write; the value
written to slot `idx` therefore depends only on `rows[idx]` and on the
response for that row's address, so the output array is the pointwise
image of the input and the set of issued lookups is the union of the
per-row lookups.  The embedding collects results and lookups in index
order, which is the unique outcome modulo the (schedule-dependent) order
of the lookup list. -/

/-- An untyped JavaScript value stored in a CSV row field. -/
inductive JVal where
  | undef
  | jnull
  | jstr (s : String)
  | jnum (n : JsNum)
  | jbool (b : Bool)
deriving DecidableEq, Repr

/-- JavaScript truthiness. -/
def JVal.truthy : JVal → Bool
  | .undef => false
  | .jnull => false
  | .jstr s => s ≠ ""
  | .jnum n => !(n.isNaN || n == .fin 0)
  | .jbool b => b

/-- Is the value `null` or `undefined` (the guard of `??`)? -/
def JVal.nullish : JVal → Bool
  | .undef => true
  | .jnull => true
  | _ => false

/-- Decimal rendering of a JavaScript number, used by `String(x)`.  The
rendering of non-integral finite numbers is abstracted with a marker
string; no property proved below depends on it. -/
def JsNum.toStr : JsNum → String
  | .nan => "NaN"
  | .posInf => "Infinity"
  | .negInf => "-Infinity"
  | .fin q => if q.den = 1 then toString q.num else "<non-integral>"

/-- `String(x)` on an untyped value. -/
def JVal.toStr : JVal → String
  | .undef => "undefined"
  | .jnull => "null"
  | .jstr s => s
  | .jnum n => n.toStr
  | .jbool true => "true"
  | .jbool false => "false"

/-- A chain `v1 || v2 || ... || ""` of JavaScript or-defaults. -/
def jsOrChain : List JVal → JVal
  | [] => .jstr ""
  | v :: t => if v.truthy then v else jsOrChain t

/-- `x ?? ""` (nullish coalescing to the empty string). -/
def jsValOrEmptyStr (v : JVal) : JVal := if v.nullish then .jstr "" else v

/-- A parsed CSV row.  The geocode-related fields and the zip-spelling
fields read by `geocodeRows` are explicit; `rest` abstracts every other
column of the row (the spreads `{ ...row, ... }` preserve it verbatim). -/
structure CsvRow (α : Type) where
  lat : JVal
  lng : JVal
  zip : JVal
  needs_geocode : JVal
  postal_code : JVal
  Zip : JVal
  ZIP : JVal
  zipcode : JVal
  postcode : JVal
  rest : α
deriving DecidableEq, Repr

/-- Outcome of one `fetch('/api/geocode-address', ...)` call: a network or
body-parse exception, a non-ok HTTP response, or an ok response whose JSON
body destructures to `{ lat, lng, zip }` (absent keys become `undef`). -/
inductive FetchOutcome where
  | fetchErr
  | notOk
  | ok (lat lng zip : JVal)
deriving DecidableEq, Repr

/-- The per-index body of a `geocodeAll` worker (lines 120-163): trim the
assembled address, skip empty addresses without a lookup, otherwise call
the geocode endpoint and merge the response; every non-skip branch sets
`needs_geocode := "false"`.  Returns the written row and the list of
lookups issued for this row. -/
def geocodeAllStep {α : Type} (geo : String → FetchOutcome)
    (makeAddress : CsvRow α → String) (r : CsvRow α) : CsvRow α × List String :=
  let address : String := ⟨jsTrim (makeAddress r).data⟩
  if address = "" then (r, [])
  else
    match geo address with
    | .ok lat lng zip =>
      if lat.truthy && lng.truthy then
        ({ r with lat := .jstr lat.toStr, lng := .jstr lng.toStr,
                  zip := if zip.nullish then r.zip else zip,
                  needs_geocode := .jstr "false" }, [address])
      else ({ r with needs_geocode := .jstr "false" }, [address])
    | .notOk => ({ r with needs_geocode := .jstr "false" }, [address])
    | .fetchErr => ({ r with needs_geocode := .jstr "false" }, [address])

/-- `geocodeAll`: the pointwise image of the worker body over the row set,
together with all issued lookups. -/
def geocodeAll {α : Type} (geo : String → FetchOutcome)
    (makeAddress : CsvRow α → String) (rows : List (CsvRow α)) :
    List (CsvRow α) × List String :=
  (rows.map fun r => (geocodeAllStep geo makeAddress r).1,
   (rows.map fun r => (geocodeAllStep geo makeAddress r).2).flatten)

/-- The per-row body of `geocodeRows` (lines 240-283): keep rows that
already have truthy `lat` and `lng` (no lookup), handle empty addresses
without a lookup, otherwise call the geocode endpoint; `zip` is filled
opportunistically from the response or the row's various zip spellings. -/
def geocodeRowsStep {α : Type} (geo : String → FetchOutcome)
    (pickAddress : CsvRow α → String) (row : CsvRow α) : CsvRow α × List String :=
  let address : String := ⟨jsTrim (pickAddress row).data⟩
  if row.lat.truthy && row.lng.truthy then (row, [])
  else if address = "" then
    ({ row with lat := jsValOrEmptyStr row.lat, lng := jsValOrEmptyStr row.lng }, [])
  else
    match geo address with
    | .ok glat glng gzip =>
      ({ row with
          lat := if glat.truthy then .jstr glat.toStr else jsValOrEmptyStr row.lat,
          lng := if glng.truthy then .jstr glng.toStr else jsValOrEmptyStr row.lng,
          zip := jsOrChain [gzip, row.zip, row.postal_code, row.Zip, row.ZIP,
                            row.zipcode, row.postcode] }, [address])
    | .notOk =>
      ({ row with lat := jsValOrEmptyStr row.lat, lng := jsValOrEmptyStr row.lng }, [address])
    | .fetchErr =>
      ({ row with lat := jsValOrEmptyStr row.lat, lng := jsValOrEmptyStr row.lng }, [address])

/-- `geocodeRows`: sequential loop over the rows (no cross-row state), so
the output is the pointwise image of the row set. -/
def geocodeRows {α : Type} (geo : String → FetchOutcome)
    (pickAddress : CsvRow α → String) (rows : List (CsvRow α)) :
    List (CsvRow α) × List String :=
  (rows.map fun r => (geocodeRowsStep geo pickAddress r).1,
   (rows.map fun r => (geocodeRowsStep geo pickAddress r).2).flatten)

/-! ## `lib/geocode.ts`: `geocodeOnce`

The provider boundary.  The environment token and the HTTP outcome are the
inputs; the `try/catch` of the source is embedded by the outcome
constructors (`netThrow` covers a rejected `fetch` as well as a rejected
`resp.json()`, both caught by the same `catch`), so the embedding is a
total function into `Option GeoResult` — no exception escapes.  A feature
`center` is `none` when the field is absent or not an array; `features`
is `none` when absent or not an array (then `json?.features?.[0]` is
`undefined`).  Center entries are modelled as numbers, as delivered by the
provider's JSON (`Number` on a number is the identity). -/

/-- One entry of a feature's `context` array. -/
structure MapboxCtx where
  id : String
  text : Option String
  short_code : Option String
deriving DecidableEq, Repr

/-- One candidate feature. -/
structure MapboxFeature where
  center : Option (List ℚ)
  context : List MapboxCtx
  postcodeProp : Option String
deriving DecidableEq, Repr

/-- A parsed response body. -/
structure MapboxBody where
  features : Option (List MapboxFeature)
deriving DecidableEq, Repr

/-- Outcome of the provider HTTP call. -/
inductive MapboxOutcome where
  | netThrow
  | httpErr (status : Nat)
  | okBody (body : Option MapboxBody)
deriving DecidableEq, Repr

/-- `{ lat, lng, zip? }`. -/
structure GeoResult where
  lat : ℚ
  lng : ℚ
  zip : Option String
deriving DecidableEq, Repr

/-- `a || b || ""` over possibly-absent strings. -/
def firstTruthyStr : List (Option String) → String
  | [] => ""
  | some s :: t => if s = "" then firstTruthyStr t else s
  | none :: t => firstTruthyStr t

/-- The `for (const c of ctx)` loop: the value assigned to `zip` by the
first context entry whose id starts with `"postcode."` (`some ""` when the
entry was found but both `text` and `short_code` were empty), or `none`
when no such entry exists. -/
def firstPostcodeCtx : List MapboxCtx → Option String
  | [] => none
  | c :: t =>
    if c.id.startsWith "postcode." then some (firstTruthyStr [c.text, c.short_code])
    else firstPostcodeCtx t

/-- The zip resolution of `geocodeOnce`: the context entry first, then the
`properties.postcode` fallback guarded by `if (!zip)`. -/
def resolveZip (feat : MapboxFeature) : Option String :=
  match firstPostcodeCtx feat.context with
  | some v =>
    if v ≠ "" then some v
    else
      match feat.postcodeProp with
      | some p => if p ≠ "" then some p else some ""
      | none => some ""
  | none =>
    match feat.postcodeProp with
    | some p => if p ≠ "" then some p else none
    | none => none

/-- Does the body carry a usable candidate: a first feature whose `center`
is an array of length at least 2? -/
def hasCandidate (b : MapboxBody) : Bool :=
  match b.features with
  | none => false
  | some fs =>
    match fs.head? with
    | none => false
    | some f =>
      match f.center with
      | none => false
      | some c => decide (2 ≤ c.length)

/-- `geocodeOnce` from `lib/geocode.ts`.  `startsWith` is modelled by
`startsWithSeq` on the character list of the trimmed token. -/
def geocodeOnce (envToken : String) (outcome : MapboxOutcome) : Option GeoResult :=
  let token : List Char := jsTrim envToken.data
  if token.isEmpty || !(startsWithSeq token "pk.".data) then none
  else
    match outcome with
    | .netThrow => none
    | .httpErr _ => none
    | .okBody none => none
    | .okBody (some body) =>
      match body.features with
      | none => none
      | some fs =>
        match fs.head? with
        | none => none
        | some feat =>
          match feat.center with
          | none => none
          | some center =>
            if center.length < 2 then none
            else some { lat := center.getD 1 0, lng := center.getD 0 0, zip := resolveZip feat }

/-! ## `lib/addresses.ts`: `parseFullAddressToParts`

```ts
const stateZipMatch = address.match(/\b([A-Z]{2})\s+(\d{5}(?:-\d{4})?)\b\s*$/);
...
const remaining = address.replace(stateZipMatch[0], '').trim();
const parts = remaining.split(',').map(part => part.trim()).filter(Boolean);
...
const match = parts[0].match(new RegExp(`^(.+?\\s+${streetSuffixes.source})\\s+(.+)$`, 'i'));
if (match) { street = match[1].trim(); city = match[2].trim(); }
```
Note that `streetSuffixes.source` contributes its own capture group, so
`match[2]` is the *suffix word* (`St`, `Ave`, ...), not the text after it;
the code really does assign the suffix word to `city`. -/

/-- `[A-Z]` (case-sensitive, as in the state/zip regex). -/
def isUpper (c : Char) : Bool := 'A' ≤ c && c ≤ 'Z'

/-- Attempt the body of `/([A-Z]{2})\s+(\d{5}(?:-\d{4})?)\b\s*$/` at the
head of `l` (the leading `\b` is checked by the caller).  Because of the
trailing `\s*$`, a successful match consumes the whole remaining string;
the result is the `(state, zip)` capture pair. -/
def matchStateZipHere (l : List Char) : Option (List Char × List Char) :=
  match l with
  | c1 :: c2 :: rest =>
    if isUpper c1 && isUpper c2 then
      let wsRun := rest.takeWhile jsWs
      if wsRun.isEmpty then none
      else
        let afterWs := rest.drop wsRun.length
        let digits := afterWs.takeWhile jsDigit
        if digits.length ≠ 5 then none
        else
          let afterD := afterWs.drop 5
          match afterD with
          | '-' :: t =>
            let d4 := t.takeWhile jsDigit
            if d4.length = 4 && (t.drop 4).all jsWs then
              some ([c1, c2], digits ++ '-' :: d4)
            else none
          | _ =>
            if afterD.all jsWs then some ([c1, c2], digits) else none
    else none
  | _ => none

/-- Left-to-right search for the state/zip pattern: the first position with
a word boundary before it where the body matches.  Returns the matched
text (= the whole suffix from that position, thanks to `\s*$`) and the
two captures. -/
def findStateZip : Option Char → List Char → Option (List Char × List Char × List Char)
  | _, [] => none
  | prev, c :: t =>
    if (match prev with | none => true | some p => !jsWord p) then
      match matchStateZipHere (c :: t) with
      | some (st, zp) => some (c :: t, st, zp)
      | none => findStateZip (some c) t
    else findStateZip (some c) t

/-- `String.prototype.replace` with a plain-string pattern: replace the
first occurrence (here: delete it). -/
def replaceFirstSeq : List Char → List Char → List Char
  | [], _ => []
  | c :: t, pat =>
    if startsWithSeq (c :: t) pat then (c :: t).drop pat.length
    else c :: replaceFirstSeq t pat

/-- The street-suffix alternation `(St|Street|Ave|Avenue|Rd|Road|Dr|Drive|
Ln|Lane|Blvd|Boulevard|Ct|Court|Pl|Place|Way|Circle|Cir|Pkwy|Parkway)`,
lowercased for the case-insensitive comparison.  At any text position at
most one alternative can match together with its closing `\b` (the one
equal to the whole word there), so membership of the word in this list is
an exact model of the alternation. -/
def streetSuffixList : List (List Char) :=
  ["st".data, "street".data, "ave".data, "avenue".data, "rd".data, "road".data,
   "dr".data, "drive".data, "ln".data, "lane".data, "blvd".data, "boulevard".data,
   "ct".data, "court".data, "pl".data, "place".data, "way".data, "circle".data,
   "cir".data, "pkwy".data, "parkway".data]

/-- Search for `^(.+?\s+\b(SUF)\b)\s+(.+)$` (case-insensitive): the lazy
`.+?` makes the match use the leftmost position where a whitespace run is
followed by a street-suffix word that is itself followed by whitespace and
at least one further character.  `pre` is the text consumed by `.+?` so
far.  Returns `(group1, suffix word)` — the two captures the code
reads. -/
def splitBySuffixAux : List Char → List Char → Option (List Char × List Char)
  | _, [] => none
  | pre, c :: rest =>
    if !pre.isEmpty && jsWs c then
      let wsRun := (c :: rest).takeWhile jsWs
      let afterWs := (c :: rest).drop wsRun.length
      let word := afterWs.takeWhile jsWord
      if !word.isEmpty && lowerL word ∈ streetSuffixList then
        let afterWord := afterWs.drop word.length
        let ws2 := afterWord.takeWhile jsWs
        let city3 := afterWord.drop ws2.length
        if !ws2.isEmpty && (!city3.isEmpty || ws2.length ≥ 2) then
          some (pre ++ wsRun ++ word, word)
        else splitBySuffixAux (pre ++ [c]) rest
      else splitBySuffixAux (pre ++ [c]) rest
    else splitBySuffixAux (pre ++ [c]) rest

/-- The result record of the address parser. -/
inductive Confidence where
  | high | medium | low
deriving DecidableEq, Repr

/-- `AddressParts` (absent optional fields are `none`; note the
no-state/zip branch stores the raw `street` without the `|| undefined`
filtering used by the final branch, so `some ""` can occur there). -/
structure AddressParts where
  street : Option String
  city : Option String
  state : Option String
  zip : Option String
  confidence : Confidence
deriving DecidableEq, Repr

/-- Lines 61-70 of `lib/addresses.ts`:
```ts
let confidence = 'high';
if (!city) confidence = 'medium';
if (!street || !city) confidence = 'low';
```
-/
def confidenceOf (street city : List Char) : Confidence :=
  let c1 := Confidence.high
  let c2 := if city.isEmpty then Confidence.medium else c1
  if street.isEmpty || city.isEmpty then Confidence.low else c2

/-- `parseFullAddressToParts` from `lib/addresses.ts`. -/
def parseFullAddressToParts (input : String) : AddressParts :=
  if input = "" then ⟨none, none, none, none, .low⟩
  else
    let address := jsTrim input.data
    match findStateZip none address with
    | none => ⟨some ⟨address⟩, none, none, none, .low⟩
    | some (matched, st, zp) =>
      let remaining := jsTrim (replaceFirstSeq address matched)
      let parts := ((remaining.splitOn ',').map jsTrim).filter (fun p => !p.isEmpty)
      let sc : List Char × List Char :=
        if parts.length ≥ 2 then
          (List.intercalate ", ".data parts.dropLast, (parts.getLast?.getD []))
        else if parts.length = 1 then
          match splitBySuffixAux [] (parts.head?.getD []) with
          | some (g1, suffixWord) => (jsTrim g1, jsTrim suffixWord)
          | none => (parts.head?.getD [], [])
        else ([], [])
      ⟨if sc.1.isEmpty then none else some ⟨sc.1⟩,
       if sc.2.isEmpty then none else some ⟨sc.2⟩,
       some ⟨st⟩, some ⟨zp⟩, confidenceOf sc.1 sc.2⟩

/-! ## Geocode-address route (`app/api/geocode-address/route.ts`):
`normalizeUSAddress`

```ts
let s = (raw || "").replace(/\s+/g, " ").replace(/\s+,/g, ",").trim();
for (const [full, code] of Object.entries(STATE_TO_USPS)) {
  s = s.replace(new RegExp(`\\b${full}\\b`, "gi"), code);
}
s = s.replace(/\bStreet\b/gi, "St")...replace(/\bDrive\b/gi, "Dr");
s = s.replace(/\s+/g, " ").trim();
```
Word-boundary global case-insensitive replacement is embedded as a
left-to-right scanner (`rwb`) that tracks the word-character-ness of the
previous character — all `\b` needs.  After a match the scanner continues
past the matched text; the previous character is then the matched text's
last character, whose word-ness equals that of the pattern's last
character (lowercasing preserves the `\w` class). -/

/-- `replace(/\s+/g, " ")`: collapse every whitespace run to one space. -/
def collapseWS : List Char → List Char
  | [] => []
  | c :: t =>
    if jsWs c then ' ' :: collapseWS (t.dropWhile jsWs)
    else c :: collapseWS t
termination_by l => l.length
decreasing_by
  · simp only [List.length_cons]
    have := (List.dropWhile_sublist (l := t) jsWs).length_le
    omega
  · simp

/-- `replace(/\s+,/g, ",")`: delete every whitespace run that directly
precedes a comma (no match can start strictly inside a whitespace run that
is not followed by a comma, so whole runs are emitted at once). -/
def fixComma : List Char → List Char
  | [] => []
  | c :: t =>
    if jsWs c then
      match _hdw : t.dropWhile jsWs with
      | ',' :: u => ',' :: fixComma u
      | r => (c :: t.takeWhile jsWs) ++ fixComma r
    else c :: fixComma t
termination_by l => l.length
decreasing_by
  · have h := (List.dropWhile_sublist (l := t) jsWs).length_le
    rw [_hdw] at h
    simp only [List.length_cons] at h ⊢
    omega
  · have h := (List.dropWhile_sublist (l := t) jsWs).length_le
    rw [_hdw] at h
    simp only [List.length_cons]
    omega
  · simp

/-- Case-insensitive literal match of `pat` (stored lowercased) against
the text: each text character lowered must equal the pattern character. -/
def lpMatch : List Char → List Char → Bool
  | _, [] => true
  | [], _ :: _ => false
  | c :: s, p :: ps => (c.toLower == p) && lpMatch s ps

/-- Word-ness of the first character (`false` for the empty list). -/
def headWordB (l : List Char) : Bool :=
  match l.head? with
  | some c => jsWord c
  | none => false

/-- The closing `\b` after a pattern of word characters: the next
character is absent or not a word character. -/
def afterBOk (l : List Char) : Bool := !headWordB l

/-- Does `\b pat \b` match at the head of `s` (the opening `\b` is the
caller's `prevW` test)? -/
def matchesAtWB (pat s : List Char) : Bool :=
  lpMatch s pat && afterBOk (s.drop pat.length)

/-- Word-ness of the character preceding the scan position right after a
match: the matched text's last character, which has the word-ness of the
pattern's last character. -/
def prevAfter (pat : List Char) (pw : Bool) : Bool :=
  match pat.getLast? with
  | some p => jsWord p
  | none => pw

/-- `replace(new RegExp("\\b" + pat + "\\b", "gi"), repl)`: left-to-right,
non-overlapping; `pw` is the word-ness of the previous character (`false`
at the start of the string). -/
def rwb (pat repl : List Char) : Bool → List Char → List Char
  | _, [] => []
  | pw, c :: t =>
    if !pw && matchesAtWB pat (c :: t) then
      repl ++ rwb pat repl (prevAfter pat pw) (t.drop (pat.length - 1))
    else c :: rwb pat repl (jsWord c) t
termination_by _ l => l.length
decreasing_by
  · simp only [List.length_cons, List.length_drop]
    omega
  · simp

/-- Is there a position with `\b pat \b` in `s` (with `pw` the word-ness
of the character before `s`)? -/
def hasOcc (pat : List Char) : Bool → List Char → Bool
  | _, [] => false
  | pw, c :: t => (!pw && matchesAtWB pat (c :: t)) || hasOcc pat (jsWord c) t

/-- Scan adjacent pairs for a forbidden configuration. -/
def pairScan (bad : Char → Char → Bool) : List Char → Bool
  | [] => true
  | [_] => true
  | a :: b :: t => !bad a b && pairScan bad (b :: t)

/-- Two adjacent whitespace characters. -/
def wsPair (a b : Char) : Bool := jsWs a && jsWs b

/-- A whitespace character directly before a comma. -/
def wsCommaPair (a b : Char) : Bool := jsWs a && b == ','

/-- Every whitespace character is a plain space. -/
def allWsSpace (l : List Char) : Bool := l.all (fun c => !jsWs c || c == ' ')

/-- First and last characters (if any) are not whitespace. -/
def trimmedB (l : List Char) : Bool :=
  (match l.head? with
   | some c => !jsWs c
   | none => true) &&
  (match l.getLast? with
   | some c => !jsWs c
   | none => true)

/-- The 51-entry state table, in source (insertion) order; patterns are
lowercase as they appear in the regexes after case folding. -/
def stateRules : List (List Char × List Char) :=
  [("alabama".data, "AL".data), ("alaska".data, "AK".data), ("arizona".data, "AZ".data),
   ("arkansas".data, "AR".data), ("california".data, "CA".data), ("colorado".data, "CO".data),
   ("connecticut".data, "CT".data), ("delaware".data, "DE".data), ("florida".data, "FL".data),
   ("georgia".data, "GA".data), ("hawaii".data, "HI".data), ("idaho".data, "ID".data),
   ("illinois".data, "IL".data), ("indiana".data, "IN".data), ("iowa".data, "IA".data),
   ("kansas".data, "KS".data), ("kentucky".data, "KY".data), ("louisiana".data, "LA".data),
   ("maine".data, "ME".data), ("maryland".data, "MD".data), ("massachusetts".data, "MA".data),
   ("michigan".data, "MI".data), ("minnesota".data, "MN".data), ("mississippi".data, "MS".data),
   ("missouri".data, "MO".data), ("montana".data, "MT".data), ("nebraska".data, "NE".data),
   ("nevada".data, "NV".data), ("new hampshire".data, "NH".data), ("new jersey".data, "NJ".data),
   ("new mexico".data, "NM".data), ("new york".data, "NY".data), ("north carolina".data, "NC".data),
   ("north dakota".data, "ND".data), ("ohio".data, "OH".data), ("oklahoma".data, "OK".data),
   ("oregon".data, "OR".data), ("pennsylvania".data, "PA".data), ("rhode island".data, "RI".data),
   ("south carolina".data, "SC".data), ("south dakota".data, "SD".data), ("tennessee".data, "TN".data),
   ("texas".data, "TX".data), ("utah".data, "UT".data), ("vermont".data, "VT".data),
   ("virginia".data, "VA".data), ("washington".data, "WA".data), ("west virginia".data, "WV".data),
   ("wisconsin".data, "WI".data), ("wyoming".data, "WY".data),
   ("district of columbia".data, "DC".data)]

/-- The five street-type abbreviations, in source order. -/
def suffixRules : List (List Char × List Char) :=
  [("street".data, "St".data), ("avenue".data, "Ave".data), ("boulevard".data, "Blvd".data),
   ("road".data, "Rd".data), ("drive".data, "Dr".data)]

/-- All replacement rules in application order. -/
def usAddressRules : List (List Char × List Char) := stateRules ++ suffixRules

/-- Apply a rule list left to right (each rule is one global replace). -/
def applyRules (rules : List (List Char × List Char)) (s : List Char) : List Char :=
  rules.foldl (fun acc r => rwb r.1 r.2 false acc) s

/-- `normalizeUSAddress` from the geocode-address route. -/
def normalizeUSAddress (raw : String) : String :=
  ⟨jsTrim (collapseWS (applyRules usAddressRules (jsTrim (fixComma (collapseWS raw.data)))))⟩

/-- `repl` (lowercased) occurs in the pattern `patP` delimited on both
sides by a non-word character or a pattern edge.  When this fails, the
global replacement with `repl` can never create a new `\b patP \b`
occurrence. -/
def WordClash (patP repl : List Char) : Prop :=
  ∃ x q r, patP = x ++ q ++ r ∧ q = lowerL repl ∧
    (x = [] ∨ ∃ c, x.getLast? = some c ∧ jsWord c = false) ∧
    (r = [] ∨ ∃ c, r.head? = some c ∧ jsWord c = false)

/-- Scanner core for `wordClashB`: at each position test whether `rl`
occurs here with a non-word character (or an edge) on both sides;
`edgeOk` records that the previous character is non-word or absent. -/
def wordClashGo (rl : List Char) : Bool → List Char → Bool
  | edgeOk, [] => edgeOk && startsWithSeq [] rl
  | edgeOk, c :: t =>
    (edgeOk && startsWithSeq (c :: t) rl &&
      (match (c :: t).drop rl.length with
       | [] => true
       | d :: _ => !jsWord d)) ||
    wordClashGo rl (!jsWord c) t

/-- Decidable scan for `WordClash`. -/
def wordClashB (patP repl : List Char) : Bool :=
  wordClashGo (lowerL repl) true patP

/-- Structural side conditions on a rule: non-empty pattern of
word-characters-or-spaces starting and ending in a word character, and a
non-empty all-word replacement. -/
def ruleOkB (r : List Char × List Char) : Bool :=
  !r.1.isEmpty && !r.2.isEmpty &&
  headWordB r.1 &&
  (match r.1.getLast? with
   | some c => jsWord c
   | none => false) &&
  r.2.all jsWord

/-- Word-ness of the character preceding a position, given the text `x`
before it and the word-ness `pw` of the character before `x`. -/
def prevOf (x : List Char) (pw : Bool) : Bool :=
  match x.getLast? with
  | some c => jsWord c
  | none => pw

theorem startsWithSeq_iff (hay needle : List Char) :
    startsWithSeq hay needle = true ↔ ∃ post, hay = needle ++ post := by
  induction needle generalizing hay with
  | nil => simp [startsWithSeq]
  | cons b u ih =>
    cases hay with
    | nil => simp [startsWithSeq]
    | cons a t =>
      simp only [startsWithSeq, Bool.and_eq_true, beq_iff_eq, ih, List.cons_append,
        List.cons.injEq]
      constructor
      · rintro ⟨rfl, post, rfl⟩; exact ⟨post, rfl, rfl⟩
      · rintro ⟨post, rfl, rfl⟩; exact ⟨rfl, post, rfl⟩

theorem containsSeq_iff (hay needle : List Char) :
    containsSeq hay needle = true ↔ SeqContains hay needle := by
  induction hay with
  | nil =>
    simp only [containsSeq, List.isEmpty_iff, SeqContains]
    constructor
    · rintro rfl; exact ⟨[], [], rfl⟩
    · rintro ⟨pre, post, h⟩
      obtain ⟨h1, -⟩ := List.append_eq_nil.mp h.symm
      exact (List.append_eq_nil.mp h1).2
  | cons a t ih =>
    simp only [containsSeq, Bool.or_eq_true, startsWithSeq_iff, ih, SeqContains]
    constructor
    · rintro (⟨post, h⟩ | ⟨pre, post, h⟩)
      · exact ⟨[], post, by simpa using h⟩
      · exact ⟨a :: pre, post, by simp [h]⟩
    · rintro ⟨pre, post, h⟩
      cases pre with
      | nil => exact Or.inl ⟨post, by simpa using h⟩
      | cons p ps =>
        right
        simp only [List.cons_append, List.cons.injEq] at h
        exact ⟨ps, post, h.2⟩

theorem takeWhile_three_digits {l : List Char}
    (h3 : 3 ≤ (l.takeWhile jsDigit).length) : hasThreeDigitRun l = true := by
  match l with
  | [] => simp [List.takeWhile] at h3
  | [a] =>
    have := (List.takeWhile_sublist (l := [a]) jsDigit).length_le
    simp at this
    omega
  | [a, b] =>
    have := (List.takeWhile_sublist (l := [a, b]) jsDigit).length_le
    simp at this
    omega
  | a :: b :: c :: t =>
    by_cases ha : jsDigit a
    · by_cases hb : jsDigit b
      · by_cases hc : jsDigit c
        · simp [hasThreeDigitRun, ha, hb, hc]
        · simp [List.takeWhile_cons, ha, hb, hc] at h3
      · simp [List.takeWhile_cons, ha, hb] at h3
    · simp [List.takeWhile_cons, ha] at h3

theorem firstDigitRun_eq_none {l : List Char}
    (h : hasThreeDigitRun l = false) : firstDigitRun l = none := by
  induction l with
  | nil => rfl
  | cons c t ih =>
    have htail : hasThreeDigitRun t = false := by
      cases t with
      | nil => rfl
      | cons d2 t2 =>
        cases t2 with
        | nil => rfl
        | cons d3 t3 =>
          simp only [hasThreeDigitRun, Bool.or_eq_false_iff] at h
          exact h.2
    have hlt : ¬ 3 ≤ ((c :: t).takeWhile jsDigit).length := by
      intro h3
      rw [takeWhile_three_digits h3] at h
      simp at h
    simp only [firstDigitRun, ge_iff_le, hlt, if_false]
    exact ih htail

/-- **C9.** For every zip input (as a string) containing no run of 3 to 5
consecutive digits — equivalently, no 3 consecutive digits, including inputs
with no digits at all — the report page's `normalizeZip` returns the string
`"00000"` (not the empty string): the empty regex match is left-padded with
zeros to width 5, so such records group under postal code 00000 in any
metrics map keyed by the normalized zip. -/
theorem normalizeZip_no_digit_run (s : String)
    (h : hasThreeDigitRun s.data = false) : normalizeZip (some s) = "00000" := by
  show String.mk (padStart ((firstDigitRun s.data).getD []) 5 '0') = "00000"
  rw [firstDigitRun_eq_none h]
  rfl

/-- Witness for C9 at the concrete input `"ab1c2"` (digits present, but no
run of three). -/
theorem normalizeZip_no_digit_run_witness :
    hasThreeDigitRun ("ab1c2".data) = false ∧ normalizeZip (some "ab1c2") = "00000" :=
  ⟨by decide, normalizeZip_no_digit_run "ab1c2" (by decide)⟩

/-- **C10.** `isFullAddressHeader` returns `true` exactly when the header —
lowercased and stripped of spaces, underscores and hyphens — either contains
or is contained in one of the six fixed variant names; in particular the very
short headers `"a"` and `"res"`, whose normalized forms are substrings of
variants, are classified as full-address columns. -/
theorem isFullAddressHeader_characterization :
    (∀ header : String, isFullAddressHeader header = true ↔
      ∃ variant ∈ fullAddressVariants,
        SeqContains (normalizeHeader header) variant ∨
        SeqContains variant (normalizeHeader header)) ∧
    isFullAddressHeader "a" = true ∧ isFullAddressHeader "res" = true := by
  refine ⟨?_, by decide, by decide⟩
  intro header
  simp only [isFullAddressHeader, List.any_eq_true, Bool.or_eq_true, containsSeq_iff]

theorem zipMetricsStep_jobs_pos {m : List (String × ZipEntry)}
    (hm : ∀ p ∈ m, 0 < p.2.jobs) (job : String × Option String) :
    ∀ p ∈ zipMetricsStep m job, 0 < p.2.jobs := by
  intro p hp
  unfold zipMetricsStep at hp
  by_cases hz : job.1 = ""
  · simp only [hz, if_true] at hp
    exact hm p hp
  · simp only [hz, if_false] at hp
    rcases hlook : (m.lookup (⟨(padStart job.1.data 5 '0').take 5⟩ : String)) with _ | e
    · rw [hlook] at hp
      rcases List.mem_append.mp hp with h | h
      · exact hm p h
      · simp only [List.mem_singleton] at h
        subst h
        exact Nat.one_pos
    · rw [hlook] at hp
      rcases List.mem_map.mp hp with ⟨q, hq, rfl⟩
      by_cases hqz : q.1 = (⟨(padStart job.1.data 5 '0').take 5⟩ : String)
      · simp only [hqz, if_true]
        exact Nat.succ_pos _
      · simp only [hqz, if_false]
        exact hm q hq

theorem buildZipMetrics_jobs_pos (jobs : List (String × Option String)) :
    ∀ p ∈ buildZipMetrics jobs, 0 < p.2.jobs := by
  have main : ∀ (l : List (String × Option String)) (m : List (String × ZipEntry)),
      (∀ p ∈ m, 0 < p.2.jobs) → ∀ p ∈ l.foldl zipMetricsStep m, 0 < p.2.jobs := by
    intro l
    induction l with
    | nil => intro m hm; simpa using hm
    | cons a t ih =>
      intro m hm
      exact ih _ (zipMetricsStep_jobs_pos hm a)
  exact main jobs [] (by simp)

theorem reportAggStep_jobs_pos {m : List (String × ZipEntry)}
    (hm : ∀ p ∈ m, 0 < p.2.jobs) (row : String × String) :
    ∀ p ∈ reportAggStep m row, 0 < p.2.jobs := by
  intro p hp
  unfold reportAggStep at hp
  by_cases hz : (⟨jsTrim row.1.data⟩ : String) = ""
  · simp only [hz, if_true] at hp
    exact hm p hp
  · simp only [hz, if_false] at hp
    rcases hlook : (m.lookup (⟨jsTrim row.1.data⟩ : String)) with _ | e
    · rw [hlook] at hp
      rcases List.mem_append.mp hp with h | h
      · exact hm p h
      · simp only [List.mem_singleton] at h
        subst h
        exact Nat.one_pos
    · rw [hlook] at hp
      rcases List.mem_map.mp hp with ⟨q, hq, rfl⟩
      by_cases hqz : q.1 = (⟨jsTrim row.1.data⟩ : String)
      · simp only [hqz, if_true]
        exact Nat.succ_pos _
      · simp only [hqz, if_false]
        exact hm q hq

theorem reportAgg_jobs_pos (rows : List (String × String)) :
    ∀ p ∈ rows.foldl reportAggStep [], 0 < p.2.jobs := by
  have main : ∀ (l : List (String × String)) (m : List (String × ZipEntry)),
      (∀ p ∈ m, 0 < p.2.jobs) → ∀ p ∈ l.foldl reportAggStep m, 0 < p.2.jobs := by
    intro l
    induction l with
    | nil => intro m hm; simpa using hm
    | cons a t ih =>
      intro m hm
      exact ih _ (reportAggStep_jobs_pos hm a)
  exact main rows [] (by simp)

/-- **C6 (amended).** In the zip-metrics API route every per-zip group has
`jobs ≥ 1` and its reported `avg` equals `sales / jobs` exactly (so the
`jobs = 0` guard of line 96 is never exercised and no division by zero
occurs).  In the report page, however, the per-zip `avg` is the *rounded*
quotient `Math.round((sales || 0) / jobs)` computed by `safeAvg`, not
`sales / jobs` itself; `safeAvg` returns 0 when `jobs` is 0. -/
theorem zipAvg_characterization :
    (∀ (jobs : List (String × Option String)) (z : String) (e : ZipEntry) (avg : JsNum),
        (z, e, avg) ∈ finalizeZipMetrics (buildZipMetrics jobs) →
        e.jobs ≠ 0 ∧ avg = e.sales.div (.fin e.jobs)) ∧
    (∀ (rows : List (String × String)) (z : String) (e : ZipEntry) (avg : JsNum),
        (z, e, avg) ∈ reportZipRows rows →
        e.jobs ≠ 0 ∧ avg = jsRound ((orZero e.sales).div (.fin e.jobs))) ∧
    (∀ sales, safeAvg sales (.fin 0) = .fin 0) := by
  refine ⟨?_, ?_, ?_⟩
  · intro jobs z e avg hmem
    rcases List.mem_map.mp hmem with ⟨q, hq, heq⟩
    have hpos := buildZipMetrics_jobs_pos jobs q hq
    obtain ⟨rfl, rfl, rfl⟩ : z = q.1 ∧ e = q.2 ∧
        avg = (if 0 < q.2.jobs then q.2.sales.div (.fin q.2.jobs) else .fin 0) := by
      have h1 := congrArg Prod.fst heq
      have h2 := congrArg (fun p => p.2.1) heq
      have h3 := congrArg (fun p => p.2.2) heq
      exact ⟨h1.symm, h2.symm, h3.symm⟩
    exact ⟨by omega, by simp [hpos]⟩
  · intro rows z e avg hmem
    rcases List.mem_map.mp hmem with ⟨q, hq, heq⟩
    have hpos := reportAgg_jobs_pos rows q hq
    obtain ⟨rfl, rfl, rfl⟩ : z = q.1 ∧ e = q.2 ∧ avg = safeAvg q.2.sales (.fin q.2.jobs) := by
      have h1 := congrArg Prod.fst heq
      have h2 := congrArg (fun p => p.2.1) heq
      have h3 := congrArg (fun p => p.2.2) heq
      exact ⟨h1.symm, h2.symm, h3.symm⟩
    refine ⟨by omega, ?_⟩
    unfold safeAvg
    have hne : (JsNum.fin q.2.jobs) ≠ .fin 0 := by
      intro h
      have : (q.2.jobs : ℚ) = 0 := by injection h
      have : q.2.jobs = 0 := by exact_mod_cast this
      omega
    have hle : (JsNum.fin q.2.jobs).leZero = false := by
      simp only [JsNum.leZero]
      rw [decide_eq_false_iff_not]
      push_neg
      exact_mod_cast hpos
    simp [hne, hle, JsNum.isNaN]
  · intro sales
    simp [safeAvg]

/-- Witness for C6 at a concrete record set: two jobs in zip 27514 with
prices 10 and 20 dollars produce `avg = 30 / 2 = 15`. -/
theorem zipAvg_characterization_witness :
    (ZipEntry.mk 2 (.fin 30)).jobs ≠ 0 ∧
    (JsNum.fin 15) = (ZipEntry.mk 2 (.fin 30)).sales.div (.fin (ZipEntry.mk 2 (.fin 30)).jobs) :=
  zipAvg_characterization.1 [("27514", some "10"), ("27514", some "$20")]
    "27514" ⟨2, .fin 30⟩ (.fin 15) (by with_unfolding_all decide)

/-- **C6 counterexample.** For the report page's aggregator, a zip group
with two jobs of prices 1 and 0 has `sales = 1`, `jobs = 2`, and a reported
`avg` of `Math.round(0.5) = 1`, which differs from `sales / jobs = 1/2`:
the claimed equality `avg = sales / jobs` fails on the report page. -/
theorem reportAvg_is_rounded :
    reportZipRows [("1", "1"), ("1", "0")] = [("1", ⟨2, .fin 1⟩, .fin 1)] ∧
    (JsNum.fin 1).div (.fin 2) = .fin (1/2) ∧ JsNum.fin 1 ≠ .fin (1/2) := by
  with_unfolding_all decide

/-- **C8 counterexample.** The string price `"Infinity"` parses (after
stripping `$` and `,`) to positive infinity, which is *not* a finite
number, yet `validateAndCoerceRow`'s price check accepts it: the check is
`isNaN(price) || price < 0`, not a finiteness check.  The claim that a row
is accepted exactly when the price parses to a *finite* number `≥ 0` is
therefore false. -/
theorem price_accepts_infinity :
    validateAndCoercePrice (.pstr "Infinity") = .valid .posInf ∧
    JsNum.isFinite .posInf = false := by
  with_unfolding_all decide

/-- **C8 (amended).** For a non-empty string price, the row passes the
price validation exactly when the stripped string `parseFloat`s to a value
that is not NaN and not negative (`+Infinity` is accepted, so the original
"finite" requirement must be weakened to "not NaN"); otherwise the row is
rejected with the invalid-price error.  (The empty string — and a missing
price — is rejected earlier with the required-field error, not the
invalid-price error.) -/
theorem price_validation_characterization (s : String) (hs : s ≠ "") :
    (validateAndCoercePrice (.pstr s) = .valid (jsParseFloat (stripCurrency s)) ↔
      ((jsParseFloat (stripCurrency s)).isNaN = false ∧
       (jsParseFloat (stripCurrency s)).ltZero = false)) ∧
    (validateAndCoercePrice (.pstr s) = .invalidError ↔
      ((jsParseFloat (stripCurrency s)).isNaN = true ∨
       (jsParseFloat (stripCurrency s)).ltZero = true)) := by
  show ((if s = "" then PriceCheck.requiredError
      else
        if ((jsParseFloat (stripCurrency s)).isNaN || (jsParseFloat (stripCurrency s)).ltZero) = true
        then PriceCheck.invalidError else PriceCheck.valid (jsParseFloat (stripCurrency s))) = _ ↔ _) ∧
    ((if s = "" then PriceCheck.requiredError
      else
        if ((jsParseFloat (stripCurrency s)).isNaN || (jsParseFloat (stripCurrency s)).ltZero) = true
        then PriceCheck.invalidError else PriceCheck.valid (jsParseFloat (stripCurrency s))) = _ ↔ _)
  rw [if_neg hs]
  by_cases h1 : (jsParseFloat (stripCurrency s)).isNaN <;>
    by_cases h2 : (jsParseFloat (stripCurrency s)).ltZero <;>
      simp [h1, h2]

/-- Witness for C8 at the concrete price string `"$1,234.50"`. -/
theorem price_validation_characterization_witness :
    validateAndCoercePrice (.pstr "$1,234.50") = .valid (jsParseFloat (stripCurrency "$1,234.50")) :=
  ((price_validation_characterization "$1,234.50" (by decide)).1).mpr
    (by with_unfolding_all decide)

/-- **C7 (amended).** For every ranked presentation of zip metrics, rows
that tie on the requested primary sort key (neither strictly less nor
strictly greater on it) are ordered by sales volume *in the requested sort
direction* — descending only when the direction is `desc`, ascending when
it is `asc`, because the code multiplies the sales tie-break by `dir` —
and, when the sales are strictly equal, by postal code in code-unit
(lexicographic) ascending order independently of the direction.  The
resulting order is a pure function of the inputs, hence deterministic. -/
theorem compareZipRows_tie (f : SortField) (d : SortDirection) (a b : ZipRow)
    (h1 : fieldLt f a b = false) (h2 : fieldLt f b a = false) :
    (jsStrictNeq a.sales b.sales = true → a.sales.ltB b.sales = true →
        compareZipRows f d a b = -1 * dirInt d) ∧
    (jsStrictNeq a.sales b.sales = true → a.sales.ltB b.sales = false →
        compareZipRows f d a b = 1 * dirInt d) ∧
    (jsStrictNeq a.sales b.sales = false →
        compareZipRows f d a b = localeCmp a.zip b.zip) := by
  unfold compareZipRows
  refine ⟨fun hne hlt => ?_, fun hne hlt => ?_, fun heq => ?_⟩ <;>
    simp [h1, h2, *]

/-- Witness for C7's amended statement: two rows tying on `jobs`, compared
with `sortField = jobs`, `sortDirection = asc`. -/
theorem compareZipRows_tie_witness :
    (jsStrictNeq (JsNum.fin 2) (JsNum.fin 1) = true →
        (JsNum.fin 2).ltB (JsNum.fin 1) = true →
        compareZipRows .jobs .asc
          ⟨"11111", .fin 1, .fin 2, .fin 0, .fin 0, .fin 0, .fin 0⟩
          ⟨"22222", .fin 1, .fin 1, .fin 0, .fin 0, .fin 0, .fin 0⟩ = -1 * dirInt .asc) ∧
    (jsStrictNeq (JsNum.fin 2) (JsNum.fin 1) = true →
        (JsNum.fin 2).ltB (JsNum.fin 1) = false →
        compareZipRows .jobs .asc
          ⟨"11111", .fin 1, .fin 2, .fin 0, .fin 0, .fin 0, .fin 0⟩
          ⟨"22222", .fin 1, .fin 1, .fin 0, .fin 0, .fin 0, .fin 0⟩ = 1 * dirInt .asc) ∧
    (jsStrictNeq (JsNum.fin 2) (JsNum.fin 1) = false →
        compareZipRows .jobs .asc
          ⟨"11111", .fin 1, .fin 2, .fin 0, .fin 0, .fin 0, .fin 0⟩
          ⟨"22222", .fin 1, .fin 1, .fin 0, .fin 0, .fin 0, .fin 0⟩ =
          localeCmp "11111" "22222") :=
  compareZipRows_tie .jobs .asc
    ⟨"11111", .fin 1, .fin 2, .fin 0, .fin 0, .fin 0, .fin 0⟩
    ⟨"22222", .fin 1, .fin 1, .fin 0, .fin 0, .fin 0, .fin 0⟩
    (by with_unfolding_all decide) (by with_unfolding_all decide)

/-- **C7 counterexample.** With `sortField = jobs` and
`sortDirection = asc`, two rows that tie on `jobs` come out ordered by
sales *ascending* (the row with sales 1 before the row with sales 2), not
by sales descending as claimed: the sales tie-break is multiplied by the
direction sign. -/
theorem sortTies_follow_direction :
    filteredAndSortedZips .jobs .asc ""
      [⟨"11111", .fin 1, .fin 2, .fin 0, .fin 0, .fin 0, .fin 0⟩,
       ⟨"22222", .fin 1, .fin 1, .fin 0, .fin 0, .fin 0, .fin 0⟩] =
      [⟨"22222", .fin 1, .fin 1, .fin 0, .fin 0, .fin 0, .fin 0⟩,
       ⟨"11111", .fin 1, .fin 2, .fin 0, .fin 0, .fin 0, .fin 0⟩] ∧
    (JsNum.fin 1 : JsNum) = .fin 1 ∧
    (JsNum.fin 1).ltB (.fin 2) = true := by
  with_unfolding_all decide

theorem geocodeAllStep_frame {α : Type} (geo : String → FetchOutcome)
    (mk : CsvRow α → String) (r : CsvRow α) :
    ((geocodeAllStep geo mk r).1).rest = r.rest ∧
    ((geocodeAllStep geo mk r).1).postal_code = r.postal_code ∧
    ((geocodeAllStep geo mk r).1).Zip = r.Zip ∧
    ((geocodeAllStep geo mk r).1).ZIP = r.ZIP ∧
    ((geocodeAllStep geo mk r).1).zipcode = r.zipcode ∧
    ((geocodeAllStep geo mk r).1).postcode = r.postcode := by
  unfold geocodeAllStep
  by_cases he : (⟨jsTrim (mk r).data⟩ : String) = ""
  · simp [he]
  · simp only [he, if_false]
    cases geo (⟨jsTrim (mk r).data⟩ : String) with
    | ok lat lng zip =>
      by_cases ht : lat.truthy && lng.truthy <;> simp [ht]
    | notOk => simp
    | fetchErr => simp

/-- **C2.** `geocodeAll` returns a row list of the same length with rows in
the same (input) order — the output slot at index `i` is computed from the
input row at index `i` — and every field of the output row other than the
geocode-related fields `lat`, `lng`, `zip`, `needs_geocode` equals the
corresponding field of the input row (the explicit zip-spelling columns
and the abstract remainder `rest` alike). -/
theorem geocodeAll_length_order_frame {α : Type} (geo : String → FetchOutcome)
    (mk : CsvRow α → String) (rows : List (CsvRow α)) :
    (geocodeAll geo mk rows).1.length = rows.length ∧
    ∀ i (h : i < rows.length),
      (geocodeAll geo mk rows).1.get ⟨i, by simpa [geocodeAll] using h⟩ =
        (geocodeAllStep geo mk (rows.get ⟨i, h⟩)).1 ∧
      ((geocodeAll geo mk rows).1.get ⟨i, by simpa [geocodeAll] using h⟩).rest =
        (rows.get ⟨i, h⟩).rest ∧
      ((geocodeAll geo mk rows).1.get ⟨i, by simpa [geocodeAll] using h⟩).postal_code =
        (rows.get ⟨i, h⟩).postal_code ∧
      ((geocodeAll geo mk rows).1.get ⟨i, by simpa [geocodeAll] using h⟩).Zip =
        (rows.get ⟨i, h⟩).Zip ∧
      ((geocodeAll geo mk rows).1.get ⟨i, by simpa [geocodeAll] using h⟩).ZIP =
        (rows.get ⟨i, h⟩).ZIP ∧
      ((geocodeAll geo mk rows).1.get ⟨i, by simpa [geocodeAll] using h⟩).zipcode =
        (rows.get ⟨i, h⟩).zipcode ∧
      ((geocodeAll geo mk rows).1.get ⟨i, by simpa [geocodeAll] using h⟩).postcode =
        (rows.get ⟨i, h⟩).postcode := by
  constructor
  · simp [geocodeAll]
  · intro i h
    have hget : (geocodeAll geo mk rows).1.get ⟨i, by simpa [geocodeAll] using h⟩ =
        (geocodeAllStep geo mk (rows.get ⟨i, h⟩)).1 := by
      show ((rows.map fun r => (geocodeAllStep geo mk r).1).get _) = _
      simp [List.getElem_map]
    have hframe := geocodeAllStep_frame geo mk (rows.get ⟨i, h⟩)
    refine ⟨hget, ?_, ?_, ?_, ?_, ?_, ?_⟩ <;> rw [hget]
    exacts [hframe.1, hframe.2.1, hframe.2.2.1, hframe.2.2.2.1,
      hframe.2.2.2.2.1, hframe.2.2.2.2.2]

/-- Witness for C2 at a concrete one-row set and index 0. -/
theorem geocodeAll_length_order_frame_witness :
    ((geocodeAll (α := Unit) (fun _ => .ok (.jstr "9") (.jstr "8") .undef) (fun _ => "X")
        [⟨.jstr "", .undef, .undef, .undef, .jstr "27514", .undef, .undef, .undef, .undef, ()⟩]).1.get
        ⟨0, by decide⟩).rest =
      (([⟨.jstr "", .undef, .undef, .undef, .jstr "27514", .undef, .undef, .undef, .undef, ()⟩] :
        List (CsvRow Unit)).get ⟨0, by decide⟩).rest :=
  ((geocodeAll_length_order_frame (α := Unit)
    (fun _ => .ok (.jstr "9") (.jstr "8") .undef) (fun _ => "X")
    [⟨.jstr "", .undef, .undef, .undef, .jstr "27514", .undef, .undef, .undef, .undef, ()⟩]).2
    0 (by decide)).2.1

/-- **C1 counterexample.** `geocodeAll` — the concurrency-limited batch
pass — issues a provider lookup for a row whose `lat` and `lng` are
already valid (truthy), and overwrites its coordinates with the response:
for a one-row set with `lat = "1"`, `lng = "2"` and a non-empty address,
the lookup list is `["X"]` (not empty) and the output row carries the
provider's `"9"`/`"8"`, not the original coordinates.  The claim that a
batch geocoding pass never looks up such rows and passes them through
unchanged is therefore false for `geocodeAll`. -/
theorem geocodeAll_relookup_of_resolved_row :
    (geocodeAll (α := Unit) (fun _ => .ok (.jstr "9") (.jstr "8") .undef) (fun _ => "X")
        [⟨.jstr "1", .jstr "2", .undef, .undef, .undef, .undef, .undef, .undef, .undef, ()⟩]).2 =
      ["X"] ∧
    (geocodeAll (α := Unit) (fun _ => .ok (.jstr "9") (.jstr "8") .undef) (fun _ => "X")
        [⟨.jstr "1", .jstr "2", .undef, .undef, .undef, .undef, .undef, .undef, .undef, ()⟩]).1 =
      [⟨.jstr "9", .jstr "8", .undef, .jstr "false", .undef, .undef, .undef, .undef, .undef, ()⟩] ∧
    (JVal.jstr "1").truthy = true ∧ (JVal.jstr "2").truthy = true := by
  decide

/-- **C1 (amended).** The sequential pre-insert pass `geocodeRows` never
issues a provider lookup for a row whose `lat` and `lng` are both truthy
and passes such rows through completely unchanged; the worker-pool pass
`geocodeAll`, by contrast, performs a lookup for every row whose assembled
address is non-empty, regardless of existing coordinates (see the
counterexample). -/
theorem geocodeRows_skips_resolved {α : Type} (geo : String → FetchOutcome)
    (pick : CsvRow α → String) (rows : List (CsvRow α)) (i : ℕ) (h : i < rows.length)
    (hlat : (rows.get ⟨i, h⟩).lat.truthy = true)
    (hlng : (rows.get ⟨i, h⟩).lng.truthy = true) :
    geocodeRowsStep geo pick (rows.get ⟨i, h⟩) = (rows.get ⟨i, h⟩, []) ∧
    (geocodeRows geo pick rows).1.get ⟨i, by simpa [geocodeRows] using h⟩ =
      rows.get ⟨i, h⟩ := by
  have hstep0 : ∀ row : CsvRow α, row.lat.truthy = true → row.lng.truthy = true →
      geocodeRowsStep geo pick row = (row, []) := by
    intro row h1 h2
    unfold geocodeRowsStep
    rw [h1, h2]
    rfl
  have hstep := hstep0 (rows.get ⟨i, h⟩) hlat hlng
  refine ⟨hstep, ?_⟩
  show ((rows.map fun r => (geocodeRowsStep geo pick r).1).get _) = _
  simp only [List.get_eq_getElem, List.getElem_map]
  exact congrArg Prod.fst hstep

/-- Witness for C1's amended statement at a concrete one-row set. -/
theorem geocodeRows_skips_resolved_witness :
    geocodeRowsStep (α := Unit) (fun _ => .ok (.jstr "9") (.jstr "8") .undef) (fun _ => "X")
        (([⟨.jstr "1", .jstr "2", .undef, .undef, .undef, .undef, .undef, .undef, .undef, ()⟩] :
          List (CsvRow Unit)).get ⟨0, by decide⟩) =
      (([⟨.jstr "1", .jstr "2", .undef, .undef, .undef, .undef, .undef, .undef, .undef, ()⟩] :
          List (CsvRow Unit)).get ⟨0, by decide⟩, []) :=
  (geocodeRows_skips_resolved (α := Unit)
    (fun _ => .ok (.jstr "9") (.jstr "8") .undef) (fun _ => "X")
    [⟨.jstr "1", .jstr "2", .undef, .undef, .undef, .undef, .undef, .undef, .undef, ()⟩]
    0 (by decide) (by decide) (by decide)).1

theorem geocodeOnce_ok_cases (env : String) (body : MapboxBody) :
    (hasCandidate body = false → geocodeOnce env (.okBody (some body)) = none) ∧
    (∀ r, geocodeOnce env (.okBody (some body)) = some r → hasCandidate body = true) := by
  obtain ⟨features⟩ := body
  unfold geocodeOnce hasCandidate
  by_cases htok : ((jsTrim env.data).isEmpty || !(startsWithSeq (jsTrim env.data) "pk.".data))
  · rw [if_pos htok]
    exact ⟨fun _ => rfl, fun r hr => absurd hr (by simp)⟩
  · rw [if_neg htok]
    cases features with
    | none => exact ⟨fun _ => rfl, fun r hr => absurd hr (by simp)⟩
    | some fs =>
      cases fs with
      | nil => exact ⟨fun _ => rfl, fun r hr => absurd hr (by simp)⟩
      | cons feat rest =>
        obtain ⟨center, ctx, pp⟩ := feat
        cases center with
        | none => exact ⟨fun _ => rfl, fun r hr => absurd hr (by simp)⟩
        | some c =>
          dsimp only [List.head?]
          by_cases hlen : c.length < 2
          · constructor
            · intro hcand
              rw [if_pos hlen]
            · intro r hr
              rw [if_pos hlen] at hr
              exact absurd hr (by simp)
          · constructor
            · intro hcand
              rw [decide_eq_true (by omega : 2 ≤ c.length)] at hcand
              exact absurd hcand (by simp)
            · intro r hr
              exact decide_eq_true (by omega : 2 ≤ c.length)

/-- **C5.** `geocodeOnce` is a total function (the source's `try/catch` is
embedded in the outcome type — `netThrow` covers transport and body-parse
exceptions — so no exception escapes this boundary) and returns `null` on
a missing or malformed access token (the trimmed token must start with
`"pk."`), on a transport or parse exception, on a non-success HTTP status,
and on a successful response without a usable candidate; it returns a
`{lat, lng, zip?}` value only when the token is well-formed and the
response is successful with a candidate feature whose center has at least
two coordinates. -/
theorem geocodeOnce_null_safety :
    (∀ (env : String) (outcome : MapboxOutcome),
        startsWithSeq (jsTrim env.data) "pk.".data = false →
        geocodeOnce env outcome = none) ∧
    (∀ (env : String) (s : Nat), geocodeOnce env (.httpErr s) = none) ∧
    (∀ env : String, geocodeOnce env .netThrow = none) ∧
    (∀ env : String, geocodeOnce env (.okBody none) = none) ∧
    (∀ (env : String) (body : MapboxBody), hasCandidate body = false →
        geocodeOnce env (.okBody (some body)) = none) ∧
    (∀ (env : String) (outcome : MapboxOutcome) (r : GeoResult),
        geocodeOnce env outcome = some r →
        startsWithSeq (jsTrim env.data) "pk.".data = true ∧
        ∃ body, outcome = .okBody (some body) ∧ hasCandidate body = true) := by
  have hnone : ∀ (env : String) (outcome : MapboxOutcome),
      ((jsTrim env.data).isEmpty || !(startsWithSeq (jsTrim env.data) "pk.".data)) = true →
      geocodeOnce env outcome = none := by
    intro env outcome htok
    unfold geocodeOnce
    rw [if_pos htok]
  refine ⟨?_, ?_, ?_, ?_, ?_, ?_⟩
  · intro env outcome hpk
    exact hnone env outcome (by rw [hpk]; simp)
  · intro env s
    unfold geocodeOnce
    by_cases htok : ((jsTrim env.data).isEmpty || !(startsWithSeq (jsTrim env.data) "pk.".data)) <;>
      simp [htok]
  · intro env
    unfold geocodeOnce
    by_cases htok : ((jsTrim env.data).isEmpty || !(startsWithSeq (jsTrim env.data) "pk.".data)) <;>
      simp [htok]
  · intro env
    unfold geocodeOnce
    by_cases htok : ((jsTrim env.data).isEmpty || !(startsWithSeq (jsTrim env.data) "pk.".data)) <;>
      simp [htok]
  · intro env body hcand
    exact (geocodeOnce_ok_cases env body).1 hcand
  · intro env outcome r hr
    have hpk : startsWithSeq (jsTrim env.data) "pk.".data = true := by
      by_contra hb
      rw [hnone env outcome (by rw [Bool.eq_false_iff.mpr hb]; simp)] at hr
      exact absurd hr (by simp)
    refine ⟨hpk, ?_⟩
    match outcome with
    | .netThrow =>
      unfold geocodeOnce at hr
      by_cases htok : ((jsTrim env.data).isEmpty || !(startsWithSeq (jsTrim env.data) "pk.".data)) <;>
        simp [htok] at hr
    | .httpErr s =>
      unfold geocodeOnce at hr
      by_cases htok : ((jsTrim env.data).isEmpty || !(startsWithSeq (jsTrim env.data) "pk.".data)) <;>
        simp [htok] at hr
    | .okBody none =>
      unfold geocodeOnce at hr
      by_cases htok : ((jsTrim env.data).isEmpty || !(startsWithSeq (jsTrim env.data) "pk.".data)) <;>
        simp [htok] at hr
    | .okBody (some body) =>
      exact ⟨body, rfl, (geocodeOnce_ok_cases env body).2 r hr⟩

/-- Witness for C5: a malformed token yields `null` even for a successful
response carrying a candidate feature. -/
theorem geocodeOnce_null_safety_witness :
    geocodeOnce "not-a-token"
      (.okBody (some ⟨some [⟨some [1, 2], [], none⟩]⟩)) = none :=
  geocodeOnce_null_safety.1 "not-a-token"
    (.okBody (some ⟨some [⟨some [1, 2], [], none⟩]⟩)) (by decide)

/-- **C3 (code bug).** The claim (and the spec) require confidence
`medium` exactly when a street was recovered but no city.  The code sets
`confidence = 'medium'` when `!city`, but the very next statement
`if (!street || !city) confidence = 'low'` fires whenever `!city` does, so
the `medium` assignment is dead and `medium` is unreachable for every
street/city combination: on `"123 Main NC 27514"` the parser extracts
`street = "123 Main"`, no city, and returns confidence `low` where the
claim demands `medium`. -/
theorem parse_confidence_medium_unreachable :
    (parseFullAddressToParts "123 Main NC 27514").street = some "123 Main" ∧
    (parseFullAddressToParts "123 Main NC 27514").city = none ∧
    (parseFullAddressToParts "123 Main NC 27514").confidence = .low ∧
    (∀ street city : List Char, confidenceOf street city ≠ .medium) := by
  refine ⟨by decide, by decide, by decide, ?_⟩
  intro street city
  unfold confidenceOf
  by_cases hc : city.isEmpty <;> by_cases hs : street.isEmpty <;> simp [hc, hs]

theorem charOfNat_toNat {n : ℕ} (h : n.isValidChar) : (Char.ofNat n).toNat = n := by
  unfold Char.ofNat
  rw [dif_pos h]
  rfl

theorem char_eq_iff_toNat {a b : Char} : a = b ↔ a.toNat = b.toNat := by
  constructor
  · intro h; rw [h]
  · intro h
    exact Char.ofNat_toNat a ▸ Char.ofNat_toNat b ▸ congrArg Char.ofNat h

theorem toLower_toNat (c : Char) :
    c.toLower.toNat = if 65 ≤ c.toNat ∧ c.toNat ≤ 90 then c.toNat + 32 else c.toNat := by
  unfold Char.toLower
  by_cases h : 65 ≤ c.toNat ∧ c.toNat ≤ 90
  · rw [if_pos ⟨h.1, h.2⟩, if_pos h]
    have hv : (c.toNat + 32).isValidChar := by
      unfold Nat.isValidChar
      left
      omega
    exact charOfNat_toNat hv
  · rw [if_neg (fun hh => h ⟨hh.1, hh.2⟩), if_neg h]

theorem charLe_iff {a b : Char} : a ≤ b ↔ a.toNat ≤ b.toNat := Iff.rfl

theorem jsWord_iff {c : Char} : jsWord c = true ↔
    (97 ≤ c.toNat ∧ c.toNat ≤ 122) ∨ (65 ≤ c.toNat ∧ c.toNat ≤ 90) ∨
    (48 ≤ c.toNat ∧ c.toNat ≤ 57) ∨ c.toNat = 95 := by
  simp only [jsWord, Bool.or_eq_true, Bool.and_eq_true, decide_eq_true_eq, beq_iff_eq,
    char_eq_iff_toNat, charLe_iff]
  rw [show ('a').toNat = 97 from rfl, show ('z').toNat = 122 from rfl,
    show ('A').toNat = 65 from rfl, show ('Z').toNat = 90 from rfl,
    show ('0').toNat = 48 from rfl, show ('9').toNat = 57 from rfl,
    show ('_').toNat = 95 from rfl]
  omega

theorem jsWs_iff {c : Char} : jsWs c = true ↔
    c.toNat = 32 ∨ c.toNat = 9 ∨ c.toNat = 10 ∨ c.toNat = 13 ∨ c.toNat = 11 ∨
    c.toNat = 12 ∨ c.toNat = 160 ∨ c.toNat = 8232 ∨ c.toNat = 8233 ∨ c.toNat = 65279 := by
  simp only [jsWs, Bool.or_eq_true, beq_iff_eq, char_eq_iff_toNat]
  rw [show (' ').toNat = 32 from rfl, show ('\t').toNat = 9 from rfl,
    show ('\n').toNat = 10 from rfl, show ('\x0d').toNat = 13 from rfl,
    show ('\x0b').toNat = 11 from rfl, show ('\x0c').toNat = 12 from rfl,
    show ('\u00A0').toNat = 160 from rfl, show ('\u2028').toNat = 8232 from rfl,
    show ('\u2029').toNat = 8233 from rfl, show ('\uFEFF').toNat = 65279 from rfl]
  omega

theorem jsWord_toLower (c : Char) : jsWord c.toLower = jsWord c := by
  by_cases h : 65 ≤ c.toNat ∧ c.toNat ≤ 90
  · have h1 : jsWord c.toLower = true := by
      rw [jsWord_iff, toLower_toNat, if_pos h]
      left
      omega
    have h2 : jsWord c = true := by
      rw [jsWord_iff]
      right; left
      exact h
    rw [h1, h2]
  · have : c.toLower = c := char_eq_iff_toNat.mpr (by rw [toLower_toNat, if_neg h])
    rw [this]

theorem jsWs_of_jsWord {c : Char} (h : jsWord c = true) : jsWs c = false := by
  rw [Bool.eq_false_iff]
  intro hws
  rw [jsWord_iff] at h
  rw [jsWs_iff] at hws
  omega

theorem jsWord_of_jsWs {c : Char} (h : jsWs c = true) : jsWord c = false := by
  rw [Bool.eq_false_iff]
  intro hw
  rw [jsWs_of_jsWord hw] at h
  exact absurd h (by simp)

theorem comma_not_jsWord : jsWord ',' = false := by decide

theorem space_jsWs : jsWs ' ' = true := by decide

theorem pairScan_cons (bad : Char → Char → Bool) (a : Char) (l : List Char) :
    pairScan bad (a :: l) =
      ((match l.head? with
        | some b => !bad a b
        | none => true) && pairScan bad l) := by
  cases l with
  | nil => simp [pairScan]
  | cons b t => simp [pairScan]

theorem pairScan_append (bad : Char → Char → Bool) (x y : List Char) :
    pairScan bad (x ++ y) = true ↔
      pairScan bad x = true ∧ pairScan bad y = true ∧
      (∀ a b, x.getLast? = some a → y.head? = some b → bad a b = false) := by
  induction x with
  | nil => simp [pairScan]
  | cons a x ih =>
    cases x with
    | nil =>
      cases y with
      | nil => simp [pairScan]
      | cons b yt =>
        simp only [List.cons_append, List.nil_append, pairScan, Bool.and_eq_true]
        constructor
        · rintro ⟨h1, h2⟩
          refine ⟨trivial, h2, ?_⟩
          intro a2 b2 ha hb
          simp only [List.getLast?_singleton, Option.some.injEq] at ha
          simp only [List.head?_cons, Option.some.injEq] at hb
          subst ha
          subst hb
          simpa using h1
        · rintro ⟨-, h2, h3⟩
          refine ⟨?_, h2⟩
          have := h3 a b (by simp) (by simp)
          simpa using this
    | cons a2 x2 =>
      simp only [List.cons_append, pairScan, Bool.and_eq_true, ih,
        List.getLast?_cons_cons]
      tauto

theorem pairScan_of_append_left {bad : Char → Char → Bool} {x y : List Char}
    (h : pairScan bad (x ++ y) = true) : pairScan bad x = true :=
  ((pairScan_append bad x y).mp h).1

theorem pairScan_of_append_right {bad : Char → Char → Bool} {x y : List Char}
    (h : pairScan bad (x ++ y) = true) : pairScan bad y = true :=
  ((pairScan_append bad x y).mp h).2.1

theorem dropWhile_head_not (p : Char → Bool) (l : List Char) :
    ∀ c, (l.dropWhile p).head? = some c → p c = false := by
  induction l with
  | nil => intro c h; exact absurd h (by simp)
  | cons a t ih =>
    intro c h
    rw [List.dropWhile_cons] at h
    by_cases hp : p a
    · rw [if_pos hp] at h
      exact ih c h
    · rw [if_neg hp] at h
      simp only [List.head?_cons, Option.some.injEq] at h
      cases h
      exact Bool.eq_false_iff.mpr hp

theorem collapseWS_nil : collapseWS [] = [] := by
  rw [collapseWS]

theorem collapseWS_cons (c : Char) (t : List Char) :
    collapseWS (c :: t) =
      if jsWs c then ' ' :: collapseWS (t.dropWhile jsWs) else c :: collapseWS t := by
  rw [collapseWS]

theorem allWsSpace_collapseWS : ∀ l, allWsSpace (collapseWS l) = true := by
  have main : ∀ n l, l.length ≤ n → allWsSpace (collapseWS l) = true := by
    intro n
    induction n with
    | zero =>
      intro l hl
      rw [List.length_eq_zero.mp (Nat.le_zero.mp hl), collapseWS_nil]
      rfl
    | succ n ih =>
      intro l hl
      cases l with
      | nil => rw [collapseWS_nil]; rfl
      | cons c t =>
        rw [collapseWS_cons]
        simp only [List.length_cons, Nat.succ_le_succ_iff] at hl
        by_cases h : jsWs c
        · rw [if_pos h]
          simp only [allWsSpace, List.all_cons, Bool.and_eq_true]
          have hlen := (List.dropWhile_sublist (l := t) jsWs).length_le
          exact ⟨by simp, ih _ (by omega)⟩
        · rw [if_neg h]
          simp only [allWsSpace, List.all_cons, Bool.and_eq_true]
          exact ⟨by simp [h], ih _ hl⟩
  exact fun l => main l.length l le_rfl

theorem pairScan_wsPair_collapseWS : ∀ l, pairScan wsPair (collapseWS l) = true := by
  have main : ∀ n l, l.length ≤ n → pairScan wsPair (collapseWS l) = true := by
    intro n
    induction n with
    | zero =>
      intro l hl
      rw [List.length_eq_zero.mp (Nat.le_zero.mp hl), collapseWS_nil]
      rfl
    | succ n ih =>
      intro l hl
      cases l with
      | nil => rw [collapseWS_nil]; rfl
      | cons c t =>
        rw [collapseWS_cons]
        simp only [List.length_cons, Nat.succ_le_succ_iff] at hl
        by_cases h : jsWs c
        · rw [if_pos h]
          rw [pairScan_cons]
          have hlen := (List.dropWhile_sublist (l := t) jsWs).length_le
          have hrec := ih (t.dropWhile jsWs) (by omega)
          rw [hrec]
          cases hd : t.dropWhile jsWs with
          | nil => simp [collapseWS_nil, pairScan]
          | cons d t2 =>
            have hdw : jsWs d = false := by
              apply dropWhile_head_not jsWs t
              rw [hd]
              rfl
            rw [collapseWS_cons]
            by_cases h2 : jsWs d
            · rw [h2] at hdw
              exact absurd hdw (by simp)
            · rw [if_neg h2]
              simp [wsPair, h2]
        · rw [if_neg h]
          rw [pairScan_cons]
          have hrec := ih t hl
          rw [hrec]
          cases t with
          | nil => simp [collapseWS_nil, pairScan]
          | cons d t2 =>
            rw [collapseWS_cons]
            by_cases h2 : jsWs d
            · rw [if_pos h2]
              simp [wsPair, h]
            · rw [if_neg h2]
              simp [wsPair, h]
  exact fun l => main l.length l le_rfl

theorem collapseWS_id : ∀ l, allWsSpace l = true → pairScan wsPair l = true →
    collapseWS l = l := by
  intro l
  induction l with
  | nil => intro _ _; exact collapseWS_nil
  | cons c t ih =>
    intro hall hpair
    rw [collapseWS_cons]
    simp only [allWsSpace, List.all_cons, Bool.and_eq_true] at hall
    by_cases h : jsWs c
    · rw [if_pos h]
      have hc : c = ' ' := by
        rcases Bool.or_eq_true _ _ ▸ hall.1 with h1 | h1
        · rw [h] at h1; exact absurd h1 (by simp)
        · exact beq_iff_eq.mp h1
      cases t with
      | nil => rw [hc]; simp [collapseWS_nil]
      | cons d t2 =>
        have hd : jsWs d = false := by
          have := hpair
          simp only [pairScan, Bool.and_eq_true] at this
          have h2 := this.1
          simp only [wsPair, h, Bool.true_and, Bool.not_eq_true'] at h2
          exact h2
        rw [List.dropWhile_cons, if_neg (by rw [hd]; simp)]
        rw [hc]
        congr 1
        apply ih
        · simp only [allWsSpace]; exact hall.2
        · simp only [pairScan, Bool.and_eq_true] at hpair
          exact hpair.2
    · rw [if_neg h]
      congr 1
      apply ih
      · simp only [allWsSpace]; exact hall.2
      · cases t with
        | nil => rfl
        | cons d t2 =>
          simp only [pairScan, Bool.and_eq_true] at hpair
          exact hpair.2

theorem comma_not_jsWs : jsWs ',' = false := by decide

theorem fixComma_nil : fixComma [] = [] := by
  rw [fixComma]

theorem fixComma_cons_not {c : Char} (t : List Char) (h : jsWs c = false) :
    fixComma (c :: t) = c :: fixComma t := by
  rw [fixComma]
  simp [h]

theorem fixComma_cons_ws_comma {c : Char} {t u : List Char} (h : jsWs c = true)
    (hd : t.dropWhile jsWs = ',' :: u) :
    fixComma (c :: t) = ',' :: fixComma u := by
  rw [fixComma]
  simp only [h, if_true]
  rw [hd]
  rfl

theorem fixComma_cons_ws_other {c : Char} {t : List Char} (h : jsWs c = true)
    (hd : ∀ u, t.dropWhile jsWs ≠ ',' :: u) :
    fixComma (c :: t) = (c :: t.takeWhile jsWs) ++ fixComma (t.dropWhile jsWs) := by
  rw [fixComma]
  simp only [h, if_true]

theorem getLastMem : ∀ {l : List Char} {a : Char}, l.getLast? = some a → a ∈ l := by
  intro l
  induction l with
  | nil => intro a h; exact absurd h (by simp)
  | cons c t ih =>
    intro a h
    cases t with
    | nil =>
      simp only [List.getLast?_singleton, Option.some.injEq] at h
      simp [h]
    | cons d t2 =>
      rw [List.getLast?_cons_cons] at h
      exact List.mem_cons_of_mem c (ih h)

theorem pairScanTail {bad : Char → Char → Bool} {a : Char} {l : List Char}
    (h : pairScan bad (a :: l) = true) : pairScan bad l = true := by
  rw [pairScan_cons, Bool.and_eq_true] at h
  exact h.2

theorem pairScan_wsComma_of_allWs {l : List Char} (h : l.all jsWs = true) :
    pairScan wsCommaPair l = true := by
  induction l with
  | nil => rfl
  | cons a t ih =>
    simp only [List.all_cons, Bool.and_eq_true] at h
    rw [pairScan_cons, ih h.2, Bool.and_true]
    cases ht : t.head? with
    | none => rfl
    | some b =>
      have hb : jsWs b = true := by
        cases t with
        | nil => exact absurd ht (by simp)
        | cons d t2 =>
          simp only [List.head?_cons, Option.some.injEq] at ht
          cases ht
          simp only [List.all_cons, Bool.and_eq_true] at h
          exact h.2.1
      simp only [wsCommaPair]
      have : b ≠ ',' := by
        intro he
        rw [he] at hb
        rw [comma_not_jsWs] at hb
        exact absurd hb (by simp)
      simp [this]

theorem pairScan_wsComma_fixComma : ∀ l, pairScan wsCommaPair (fixComma l) = true := by
  have main : ∀ n l, l.length ≤ n → pairScan wsCommaPair (fixComma l) = true := by
    intro n
    induction n with
    | zero =>
      intro l hl
      rw [List.length_eq_zero.mp (Nat.le_zero.mp hl), fixComma_nil]
      rfl
    | succ n ih =>
      intro l hl
      cases l with
      | nil => rw [fixComma_nil]; rfl
      | cons c t =>
        simp only [List.length_cons, Nat.succ_le_succ_iff] at hl
        by_cases h : jsWs c
        · by_cases hcm : ∃ u, t.dropWhile jsWs = ',' :: u
          · obtain ⟨u, hu⟩ := hcm
            rw [fixComma_cons_ws_comma h hu]
            rw [pairScan_cons]
            have hlu : u.length ≤ n := by
              have h1 := (List.dropWhile_sublist (l := t) jsWs).length_le
              rw [hu] at h1
              simp only [List.length_cons] at h1
              omega
            rw [ih u hlu, Bool.and_true]
            cases hh : (fixComma u).head? with
            | none => rfl
            | some b => simp [wsCommaPair, comma_not_jsWs]
          · push_neg at hcm
            rw [fixComma_cons_ws_other h hcm]
            rw [pairScan_append]
            have hlen := (List.dropWhile_sublist (l := t) jsWs).length_le
            refine ⟨?_, ih _ (by omega), ?_⟩
            · apply pairScan_wsComma_of_allWs
              simp only [List.all_cons, Bool.and_eq_true]
              exact ⟨h, List.all_eq_true.mpr (fun c hc => List.mem_takeWhile_imp hc)⟩
            · intro a b ha hb
              have hbne : b ≠ ',' := by
                intro he
                subst he
                cases hdw : t.dropWhile jsWs with
                | nil =>
                  rw [hdw, fixComma_nil] at hb
                  exact absurd hb (by simp)
                | cons d t2 =>
                  have hd : jsWs d = false := dropWhile_head_not jsWs t d (by rw [hdw]; rfl)
                  rw [hdw, fixComma_cons_not t2 hd] at hb
                  simp only [List.head?_cons, Option.some.injEq] at hb
                  subst hb
                  exact hcm t2 hdw
              simp [wsCommaPair, hbne]
        · rw [fixComma_cons_not t (Bool.eq_false_iff.mpr h)]
          rw [pairScan_cons]
          rw [ih t hl, Bool.and_true]
          cases ht : (fixComma t).head? with
          | none => rfl
          | some b => simp [wsCommaPair, Bool.eq_false_iff.mpr h]
  exact fun l => main l.length l le_rfl

theorem fixComma_id : ∀ l, pairScan wsCommaPair l = true → fixComma l = l := by
  have main : ∀ n l, l.length ≤ n → pairScan wsCommaPair l = true → fixComma l = l := by
    intro n
    induction n with
    | zero =>
      intro l hl _
      rw [List.length_eq_zero.mp (Nat.le_zero.mp hl), fixComma_nil]
    | succ n ih =>
      intro l hl hp
      cases l with
      | nil => exact fixComma_nil
      | cons c t =>
        simp only [List.length_cons, Nat.succ_le_succ_iff] at hl
        by_cases h : jsWs c
        · have hcm : ∀ u, t.dropWhile jsWs ≠ ',' :: u := by
            intro u hu
            have hsplit : c :: t = (c :: t.takeWhile jsWs) ++ (',' :: u) := by
              rw [← hu]
              simp [List.takeWhile_append_dropWhile]
            rw [hsplit] at hp
            rw [pairScan_append] at hp
            obtain ⟨-, -, hj⟩ := hp
            cases hgl : (c :: t.takeWhile jsWs).getLast? with
            | none => exact absurd hgl (by simp)
            | some a =>
              have haws : jsWs a = true := by
                have hmem := getLastMem hgl
                rcases List.mem_cons.mp hmem with h1 | h1
                · rw [h1]; exact h
                · exact List.mem_takeWhile_imp h1
              have := hj a ',' hgl (by rfl)
              rw [wsCommaPair, haws] at this
              simp at this
          rw [fixComma_cons_ws_other h hcm]
          have hlen := (List.dropWhile_sublist (l := t) jsWs).length_le
          have hrest : pairScan wsCommaPair (t.dropWhile jsWs) = true := by
            have hsplit : c :: t = (c :: t.takeWhile jsWs) ++ t.dropWhile jsWs := by
              simp [List.takeWhile_append_dropWhile]
            rw [hsplit] at hp
            exact pairScan_of_append_right hp
          rw [ih _ (by omega) hrest]
          simp [List.takeWhile_append_dropWhile]
        · rw [fixComma_cons_not t (Bool.eq_false_iff.mpr h)]
          rw [ih t hl (pairScanTail hp)]
  exact fun l => main l.length l le_rfl

theorem jsTrim_decomp (l : List Char) :
    ∃ a b, l = a ++ jsTrim l ++ b ∧ a.all jsWs = true ∧ b.all jsWs = true := by
  refine ⟨l.takeWhile jsWs, ((l.dropWhile jsWs).reverse.takeWhile jsWs).reverse, ?_, ?_, ?_⟩
  · rw [List.append_assoc]
    conv_lhs => rw [← List.takeWhile_append_dropWhile (p := jsWs) (l := l)]
    congr 1
    unfold jsTrim
    conv_lhs => rw [← List.reverse_reverse (l.dropWhile jsWs),
      ← List.takeWhile_append_dropWhile (p := jsWs) (l := (l.dropWhile jsWs).reverse)]
    rw [List.reverse_append]
  · exact List.all_eq_true.mpr (fun c hc => List.mem_takeWhile_imp hc)
  · rw [List.all_reverse]
    exact List.all_eq_true.mpr (fun c hc => List.mem_takeWhile_imp hc)

theorem trimmedB_jsTrim (l : List Char) : trimmedB (jsTrim l) = true := by
  unfold jsTrim trimmedB
  rw [Bool.and_eq_true]
  constructor
  · rw [List.head?_reverse]
    cases hd2 : ((l.dropWhile jsWs).reverse.dropWhile jsWs).getLast? with
    | none => rfl
    | some c =>
      have hne : (l.dropWhile jsWs).reverse.dropWhile jsWs ≠ [] := by
        intro he
        rw [he] at hd2
        exact absurd hd2 (by simp)
      have hsplit := List.takeWhile_append_dropWhile (p := jsWs)
        (l := (l.dropWhile jsWs).reverse)
      have hgl : (l.dropWhile jsWs).reverse.getLast? = some c := by
        rw [← hsplit, List.getLast?_append_of_ne_nil _ hne, hd2]
      rw [List.getLast?_reverse] at hgl
      have : jsWs c = false := by
        cases hml : l.dropWhile jsWs with
        | nil => rw [hml] at hgl; exact absurd hgl (by simp)
        | cons d t =>
          rw [hml] at hgl
          simp only [List.head?_cons, Option.some.injEq] at hgl
          subst hgl
          exact dropWhile_head_not jsWs l d (by rw [hml]; rfl)
      simp [this]
  · rw [List.getLast?_reverse]
    cases hd2 : ((l.dropWhile jsWs).reverse.dropWhile jsWs).head? with
    | none => rfl
    | some c =>
      have := dropWhile_head_not jsWs (l.dropWhile jsWs).reverse c hd2
      simp [this]

theorem jsTrim_id {l : List Char} (h : trimmedB l = true) : jsTrim l = l := by
  unfold trimmedB at h
  rw [Bool.and_eq_true] at h
  have h1 : l.dropWhile jsWs = l := by
    cases l with
    | nil => rfl
    | cons c t =>
      have := h.1
      simp only [List.head?_cons] at this
      rw [List.dropWhile_cons, if_neg (by simp_all)]
  unfold jsTrim
  rw [h1]
  have h2 : l.reverse.dropWhile jsWs = l.reverse := by
    cases hr : l.reverse with
    | nil => rfl
    | cons c t =>
      have hh : l.getLast? = some c := by
        rw [← List.head?_reverse, hr, List.head?_cons]
      have := h.2
      rw [hh] at this
      simp only [] at this
      rw [List.dropWhile_cons, if_neg (by simp_all)]
  rw [h2, List.reverse_reverse]

theorem allWsSpace_jsTrim {l : List Char} (h : allWsSpace l = true) :
    allWsSpace (jsTrim l) = true := by
  obtain ⟨a, b, hl, -, -⟩ := jsTrim_decomp l
  rw [hl] at h
  unfold allWsSpace at h ⊢
  simp only [List.all_append, Bool.and_eq_true] at h
  exact h.1.2

theorem pairScan_jsTrim {bad : Char → Char → Bool} {l : List Char}
    (h : pairScan bad l = true) : pairScan bad (jsTrim l) = true := by
  obtain ⟨a, b, hl, -, -⟩ := jsTrim_decomp l
  rw [hl, List.append_assoc] at h
  exact pairScan_of_append_left (pairScan_of_append_right h)

theorem rwb_nil (pat repl : List Char) (pw : Bool) : rwb pat repl pw [] = [] := by
  rw [rwb]

theorem rwb_cons (pat repl : List Char) (pw : Bool) (c : Char) (t : List Char) :
    rwb pat repl pw (c :: t) =
      if !pw && matchesAtWB pat (c :: t) then
        repl ++ rwb pat repl (prevAfter pat pw) (t.drop (pat.length - 1))
      else c :: rwb pat repl (jsWord c) t := by
  rw [rwb]

theorem rwb_id {pat repl : List Char} : ∀ {pw s}, hasOcc pat pw s = false →
    rwb pat repl pw s = s := by
  have main : ∀ n s (pw : Bool), s.length ≤ n → hasOcc pat pw s = false →
      rwb pat repl pw s = s := by
    intro n
    induction n with
    | zero =>
      intro s pw hl _
      rw [List.length_eq_zero.mp (Nat.le_zero.mp hl), rwb_nil]
    | succ n ih =>
      intro s pw hl ho
      cases s with
      | nil => exact rwb_nil _ _ _
      | cons c t =>
        simp only [List.length_cons, Nat.succ_le_succ_iff] at hl
        simp only [hasOcc, Bool.or_eq_false_iff, Bool.and_eq_false_iff] at ho
        rw [rwb_cons]
        have hcond : (!pw && matchesAtWB pat (c :: t)) = false := by
          rcases ho.1 with h | h
          · simp [h]
          · simp [h]
        rw [hcond, if_neg (by simp)]
        rw [ih t (jsWord c) hl ho.2]
  intro pw s h
  exact main s.length s pw le_rfl h

theorem lpMatch_head {p c : Char} {ps t : List Char}
    (h : lpMatch (c :: t) (p :: ps) = true) : c.toLower = p := by
  simp only [lpMatch, Bool.and_eq_true, beq_iff_eq] at h
  exact h.1

theorem matchesAtWB_headWord {pat s : List Char} (hpat : headWordB pat = true)
    (h : matchesAtWB pat s = true) : headWordB s = true := by
  unfold matchesAtWB at h
  rw [Bool.and_eq_true] at h
  cases pat with
  | nil => exact absurd hpat (by simp [headWordB])
  | cons p ps =>
    cases s with
    | nil => exact absurd h.1 (by simp [lpMatch])
    | cons c t =>
      have hc := lpMatch_head h.1
      unfold headWordB at hpat ⊢
      simp only [List.head?_cons] at hpat ⊢
      rw [← jsWord_toLower c, hc]
      exact hpat

theorem rwb_cons_shape (pat repl : List Char) (hne : repl ≠ []) (pw : Bool) (d : Char)
    (t2 : List Char) :
    ∃ hd rest2, rwb pat repl pw (d :: t2) = hd :: rest2 ∧ (hd = d ∨ hd ∈ repl) := by
  rw [rwb_cons]
  by_cases hm : (!pw && matchesAtWB pat (d :: t2)) = true
  · rw [if_pos hm]
    cases repl with
    | nil => exact absurd rfl hne
    | cons r rs =>
      exact ⟨r, rs ++ rwb (pat) (r :: rs) (prevAfter pat pw) (t2.drop (pat.length - 1)),
        by simp, Or.inr (by simp)⟩
  · rw [if_neg hm]
    exact ⟨d, rwb pat repl (jsWord d) t2, rfl, Or.inl rfl⟩

theorem pairScan_of_forall_snd {bad : Char → Char → Bool} {P : Char → Bool}
    (hP : ∀ a b, P b = true → bad a b = false) :
    ∀ {l : List Char}, l.all P = true → pairScan bad l = true := by
  intro l
  induction l with
  | nil => intro _; rfl
  | cons a t ih =>
    intro h
    simp only [List.all_cons, Bool.and_eq_true] at h
    rw [pairScan_cons, ih h.2, Bool.and_true]
    cases ht : t.head? with
    | none => rfl
    | some b =>
      have hb : P b = true := by
        cases t with
        | nil => exact absurd ht (by simp)
        | cons d t2 =>
          simp only [List.head?_cons, Option.some.injEq] at ht
          subst ht
          simp only [List.all_cons, Bool.and_eq_true] at h
          exact h.2.1
      simp [hP a b hb]

theorem pairScan_drop {bad : Char → Char → Bool} :
    ∀ (k : ℕ) {l : List Char}, pairScan bad l = true → pairScan bad (l.drop k) = true := by
  intro k
  induction k with
  | zero => intro l h; exact h
  | succ k ih =>
    intro l h
    cases l with
    | nil => rfl
    | cons c t => exact ih (pairScanTail h)

theorem prevOf_nil (pw : Bool) : prevOf [] pw = pw := rfl

theorem prevOf_cons (a : Char) (u : List Char) (pw : Bool) :
    prevOf (a :: u) pw = prevOf u (jsWord a) := by
  cases u with
  | nil => rfl
  | cons b u2 =>
    unfold prevOf
    rw [List.getLast?_cons_cons]
    cases h : (b :: u2).getLast? with
    | none => simp at h
    | some c => rfl

theorem lowerL_cons (a : Char) (l : List Char) :
    lowerL (a :: l) = a.toLower :: lowerL l := rfl

theorem lowerL_length (l : List Char) : (lowerL l).length = l.length :=
  List.length_map _ _

theorem lpMatch_true_nil (l : List Char) : lpMatch l [] = true := by
  cases l <;> rfl

theorem lpMatch_length_le : ∀ (p l : List Char), lpMatch l p = true →
    p.length ≤ l.length := by
  intro p
  induction p with
  | nil => intro l _; simp
  | cons q ps ih =>
    intro l h
    cases l with
    | nil => exact absurd h (by simp [lpMatch])
    | cons c t =>
      simp only [lpMatch, Bool.and_eq_true] at h
      simpa using Nat.succ_le_succ (ih t h.2)

theorem lpMatch_mono_append : ∀ (p l w : List Char), lpMatch l p = true →
    lpMatch (l ++ w) p = true := by
  intro p
  induction p with
  | nil => intro l w _; exact lpMatch_true_nil _
  | cons q ps ih =>
    intro l w h
    cases l with
    | nil => exact absurd h (by simp [lpMatch])
    | cons c t =>
      simp only [lpMatch, Bool.and_eq_true] at h
      simp only [List.cons_append, lpMatch, Bool.and_eq_true]
      exact ⟨h.1, ih t w h.2⟩

theorem lpMatch_append_cases : ∀ (u p v : List Char), lpMatch (u ++ v) p = true →
    p.length < u.length ∨ ∃ p2, p = lowerL u ++ p2 ∧ lpMatch v p2 = true := by
  intro u
  induction u with
  | nil =>
    intro p v h
    exact Or.inr ⟨p, by simp [lowerL], by simpa using h⟩
  | cons a u2 ih =>
    intro p v h
    cases p with
    | nil => exact Or.inl (by simp)
    | cons q p2 =>
      simp only [List.cons_append, lpMatch, Bool.and_eq_true, beq_iff_eq] at h
      rcases ih p2 v h.2 with hlt | ⟨p3, hp3, hlp⟩
      · exact Or.inl (by simpa using Nat.succ_lt_succ hlt)
      · refine Or.inr ⟨p3, ?_, hlp⟩
        rw [lowerL_cons, List.cons_append, ← hp3, ← h.1]

theorem headWordB_nil : headWordB [] = false := rfl

theorem headWordB_cons (c : Char) (l : List Char) : headWordB (c :: l) = jsWord c := rfl

theorem rwb_true_head (pat repl : List Char) (l : List Char) :
    headWordB (rwb pat repl true l) = headWordB l := by
  cases l with
  | nil => rw [rwb_nil]
  | cons d t2 =>
    rw [rwb_cons]
    simp only [Bool.not_true, Bool.false_and, Bool.false_eq_true, if_false]
    rw [headWordB_cons, headWordB_cons]

theorem match_through_copy {repl : List Char} (hrw : ∀ c ∈ repl, jsWord c = true)
    {out2 p2 x patX : List Char}
    (hpatX : patX = x ++ p2)
    (hx : x = [] ∨ ∃ c, x.getLast? = some c ∧ jsWord c = false)
    (hhead : headWordB out2 = false)
    (hlp : lpMatch (repl ++ out2) p2 = true)
    (haft : afterBOk ((repl ++ out2).drop p2.length) = true) :
    WordClash patX repl := by
  rcases lpMatch_append_cases repl p2 out2 hlp with hlt | ⟨p3, hp3, hlp3⟩
  · exfalso
    have hdropne : repl.drop p2.length ≠ [] := by
      intro he
      have := List.drop_eq_nil_iff.mp he
      omega
    have hdrop : (repl ++ out2).drop p2.length = repl.drop p2.length ++ out2 := by
      rw [List.drop_append_eq_append_drop]
      have : p2.length - repl.length = 0 := by omega
      rw [this, List.drop_zero]
    rw [hdrop] at haft
    cases he : repl.drop p2.length with
    | nil => exact hdropne he
    | cons e rest =>
      have hmem : e ∈ repl := List.mem_of_mem_drop (by rw [he]; exact List.mem_cons_self _ _)
      rw [he] at haft
      unfold afterBOk at haft
      rw [List.cons_append, headWordB_cons, hrw e hmem] at haft
      exact absurd haft (by simp)
  · cases p3 with
    | nil =>
      refine ⟨x, lowerL repl, [], ?_, rfl, hx, Or.inl rfl⟩
      rw [hpatX, hp3]
      simp
    | cons q p4 =>
      cases out2 with
      | nil => exact absurd hlp3 (by simp [lpMatch])
      | cons d t2 =>
        simp only [lpMatch, Bool.and_eq_true, beq_iff_eq] at hlp3
        have hq : jsWord q = false := by
          rw [headWordB_cons] at hhead
          rw [← hlp3.1, jsWord_toLower, hhead]
        refine ⟨x, lowerL repl, q :: p4, ?_, rfl, hx, Or.inr ⟨q, rfl, hq⟩⟩
        rw [hpatX, hp3, List.append_assoc]

theorem rwb_match_transfer {pat repl pat2 : List Char}
    (hrw : ∀ c ∈ repl, jsWord c = true)
    (hpA : ∀ b, prevAfter pat b = true) :
    ∀ n (s : List Char), s.length ≤ n → ∀ (pw : Bool) (x p2 : List Char),
      pat2 = x ++ p2 →
      (pw = false → x = [] ∨ ∃ c, x.getLast? = some c ∧ jsWord c = false) →
      lpMatch (rwb pat repl pw s) p2 = true →
      afterBOk ((rwb pat repl pw s).drop p2.length) = true →
      (lpMatch s p2 = true ∧ afterBOk (s.drop p2.length) = true) ∨ WordClash pat2 repl := by
  intro n
  induction n with
  | zero =>
    intro s hl pw x p2 hx12 hxe hlp haft
    have hs : s = [] := List.length_eq_zero.mp (Nat.le_zero.mp hl)
    subst hs
    rw [rwb_nil] at hlp haft
    cases p2 with
    | nil => exact Or.inl ⟨lpMatch_true_nil _, haft⟩
    | cons q p4 => exact absurd hlp (by simp [lpMatch])
  | succ n ih =>
    intro s hl pw x p2 hx12 hxe hlp haft
    cases s with
    | nil =>
      rw [rwb_nil] at hlp haft
      cases p2 with
      | nil => exact Or.inl ⟨lpMatch_true_nil _, haft⟩
      | cons q p4 => exact absurd hlp (by simp [lpMatch])
    | cons c t =>
      have hl2 : t.length ≤ n := by
        simp only [List.length_cons] at hl
        omega
      by_cases hm : (!pw && matchesAtWB pat (c :: t)) = true
      · rw [rwb_cons, if_pos hm] at hlp haft
        rw [Bool.and_eq_true] at hm
        obtain ⟨hnpw, hmw⟩ := hm
        have hpw : pw = false := by simpa using hnpw
        have hpne : pat ≠ [] := by
          intro h
          have := hpA false
          rw [h] at this
          simp [prevAfter] at this
        unfold matchesAtWB at hmw
        rw [Bool.and_eq_true] at hmw
        obtain ⟨hlpm, hafm⟩ := hmw
        have hkk : ∃ k, pat.length = k + 1 :=
          ⟨pat.length - 1, by
            have : pat.length ≠ 0 := fun h => hpne (List.length_eq_zero.mp h)
            omega⟩
        obtain ⟨k, hk⟩ := hkk
        have hdropct : (c :: t).drop pat.length = t.drop (pat.length - 1) := by
          rw [hk]
          simp
        rw [hdropct] at hafm
        have hheadt2 : headWordB (t.drop (pat.length - 1)) = false := by
          unfold afterBOk at hafm
          simpa using hafm
        rw [hpA pw] at hlp haft
        have hhead : headWordB (rwb pat repl true (t.drop (pat.length - 1))) = false := by
          rw [rwb_true_head]
          exact hheadt2
        exact Or.inr (match_through_copy hrw hx12 (hxe hpw) hhead hlp haft)
      · rw [rwb_cons, if_neg hm] at hlp haft
        cases p2 with
        | nil =>
          refine Or.inl ⟨lpMatch_true_nil _, ?_⟩
          simp only [List.length_nil, List.drop_zero] at haft ⊢
          unfold afterBOk at haft ⊢
          rw [headWordB_cons] at haft ⊢
          exact haft
        | cons q p4 =>
          simp only [lpMatch, Bool.and_eq_true, beq_iff_eq] at hlp
          have hdrop : ((c :: rwb pat repl (jsWord c) t)).drop (q :: p4).length
              = (rwb pat repl (jsWord c) t).drop p4.length := by simp
          rw [hdrop] at haft
          have hxe2 : jsWord c = false →
              (x ++ [q]) = [] ∨ ∃ c2, (x ++ [q]).getLast? = some c2 ∧ jsWord c2 = false := by
            intro hc
            refine Or.inr ⟨q, ?_, ?_⟩
            · rw [List.getLast?_concat]
            · rw [← hlp.1, jsWord_toLower, hc]
          have hx13 : pat2 = (x ++ [q]) ++ p4 := by
            rw [hx12, List.append_assoc]
            rfl
          rcases ih t hl2 (jsWord c) (x ++ [q]) p4 hx13 hxe2 hlp.2 haft with ⟨h1, h2⟩ | hclash
          · refine Or.inl ⟨?_, ?_⟩
            · simp only [lpMatch, Bool.and_eq_true, beq_iff_eq]
              exact ⟨hlp.1, h1⟩
            · simpa using h2
          · exact Or.inr hclash

theorem hasOcc_nil (pat : List Char) (pw : Bool) : hasOcc pat pw [] = false := rfl

theorem hasOcc_cons (pat : List Char) (pw : Bool) (c : Char) (t : List Char) :
    hasOcc pat pw (c :: t) =
      ((!pw && matchesAtWB pat (c :: t)) || hasOcc pat (jsWord c) t) := rfl

theorem hasOcc_append_allword_elim {pat2 u : List Char}
    (hu : ∀ c ∈ u, jsWord c = true) :
    ∀ (pw : Bool) (v : List Char), hasOcc pat2 pw (u ++ v) = true →
      (pw = false ∧ matchesAtWB pat2 (u ++ v) = true) ∨
      hasOcc pat2 (prevOf u pw) v = true := by
  induction u with
  | nil =>
    intro pw v h
    exact Or.inr (by simpa [prevOf_nil] using h)
  | cons a u2 ih =>
    intro pw v h
    rw [List.cons_append, hasOcc_cons, Bool.or_eq_true] at h
    rcases h with h | h
    · rw [Bool.and_eq_true] at h
      exact Or.inl ⟨by simpa using h.1, by rw [List.cons_append]; exact h.2⟩
    · have ha : jsWord a = true := hu a (by simp)
      rcases ih (fun c hc => hu c (by simp [hc])) (jsWord a) v h with h2 | h2
      · rw [ha] at h2
        exact absurd h2.1 (by simp)
      · rw [prevOf_cons]
        exact Or.inr h2

theorem hasOcc_any_of_true {pat2 l : List Char} (h : hasOcc pat2 true l = true) :
    ∀ b, hasOcc pat2 b l = true := by
  intro b
  cases l with
  | nil => exact absurd h (by simp [hasOcc_nil])
  | cons d t2 =>
    rw [hasOcc_cons] at h
    simp only [Bool.not_true, Bool.false_and, Bool.false_or] at h
    rw [hasOcc_cons, h]
    simp

theorem hasOcc_drop_lift {pat2 : List Char} :
    ∀ (k : ℕ) (l : List Char), hasOcc pat2 true (l.drop k) = true →
      ∀ b, hasOcc pat2 b l = true := by
  intro k
  induction k with
  | zero =>
    intro l h b
    exact hasOcc_any_of_true (by simpa using h) b
  | succ k ih =>
    intro l h b
    cases l with
    | nil => exact absurd h (by simp [hasOcc_nil])
    | cons d t2 =>
      rw [List.drop_succ_cons] at h
      rw [hasOcc_cons, ih t2 h (jsWord d)]
      simp

theorem matchesAt_extend {pat2 l w : List Char} (hw : headWordB w = false)
    (hlp : lpMatch l pat2 = true) (haft : afterBOk (l.drop pat2.length) = true) :
    lpMatch (l ++ w) pat2 = true ∧ afterBOk ((l ++ w).drop pat2.length) = true := by
  refine ⟨lpMatch_mono_append pat2 l w hlp, ?_⟩
  have hle : pat2.length ≤ l.length := lpMatch_length_le pat2 l hlp
  have hdrop : (l ++ w).drop pat2.length = l.drop pat2.length ++ w := by
    rw [List.drop_append_eq_append_drop]
    have : pat2.length - l.length = 0 := by omega
    rw [this, List.drop_zero]
  rw [hdrop]
  cases he : l.drop pat2.length with
  | nil =>
    rw [List.nil_append]
    unfold afterBOk
    rw [hw]
    rfl
  | cons e rest =>
    rw [he] at haft
    unfold afterBOk at haft ⊢
    rw [List.cons_append, headWordB_cons]
    rw [headWordB_cons] at haft
    exact haft

theorem hasOcc_append_right_lift {pat2 w : List Char} (hw : headWordB w = false) :
    ∀ (v : List Char) (pw : Bool), hasOcc pat2 pw v = true →
      hasOcc pat2 pw (v ++ w) = true := by
  intro v
  induction v with
  | nil => intro pw h; exact absurd h (by simp [hasOcc_nil])
  | cons d v2 ih =>
    intro pw h
    rw [hasOcc_cons, Bool.or_eq_true] at h
    rw [List.cons_append, hasOcc_cons, Bool.or_eq_true]
    rcases h with h | h
    · rw [Bool.and_eq_true] at h
      unfold matchesAtWB at h
      rw [Bool.and_eq_true] at h
      obtain ⟨h1, h2⟩ := matchesAt_extend hw (h.2).1 (h.2).2
      refine Or.inl ?_
      rw [Bool.and_eq_true]
      refine ⟨h.1, ?_⟩
      unfold matchesAtWB
      rw [Bool.and_eq_true]
      exact ⟨by rw [← List.cons_append]; exact h1, by rw [← List.cons_append]; exact h2⟩
    · exact Or.inr (ih (jsWord d) h)

theorem hasOcc_prepend {pat2 : List Char} :
    ∀ (u : List Char) (pw : Bool) (z : List Char),
      hasOcc pat2 (prevOf u pw) z = true → hasOcc pat2 pw (u ++ z) = true := by
  intro u
  induction u with
  | nil => intro pw z h; simpa [prevOf_nil] using h
  | cons a u2 ih =>
    intro pw z h
    rw [prevOf_cons] at h
    rw [List.cons_append, hasOcc_cons, ih (jsWord a) z h]
    simp

theorem hasOcc_infix_lift {pat2 u v w : List Char} {pw : Bool}
    (hw : headWordB w = false)
    (h : hasOcc pat2 (prevOf u pw) v = true) :
    hasOcc pat2 pw (u ++ (v ++ w)) = true :=
  hasOcc_prepend u pw (v ++ w) (hasOcc_append_right_lift hw v _ h)

theorem prevOf_allword {repl : List Char} (hrne : repl ≠ [])
    (hrw : ∀ c ∈ repl, jsWord c = true) (pw : Bool) : prevOf repl pw = true := by
  unfold prevOf
  cases hgl : repl.getLast? with
  | none =>
    cases repl with
    | nil => exact absurd rfl hrne
    | cons a u => simp at hgl
  | some e => exact hrw e (getLastMem hgl)

theorem rwb_hasOcc_transfer {pat repl pat2 : List Char}
    (hrw : ∀ c ∈ repl, jsWord c = true) (hrne : repl ≠ [])
    (hpA : ∀ b, prevAfter pat b = true) :
    ∀ n (s : List Char), s.length ≤ n → ∀ pw,
      hasOcc pat2 pw (rwb pat repl pw s) = true →
      hasOcc pat2 pw s = true ∨ WordClash pat2 repl := by
  intro n
  induction n with
  | zero =>
    intro s hl pw h
    rw [List.length_eq_zero.mp (Nat.le_zero.mp hl), rwb_nil] at h
    exact absurd h (by simp [hasOcc_nil])
  | succ n ih =>
    intro s hl pw h
    cases s with
    | nil =>
      rw [rwb_nil] at h
      exact absurd h (by simp [hasOcc_nil])
    | cons c t =>
      have hl2 : t.length ≤ n := by
        simp only [List.length_cons] at hl
        omega
      by_cases hm : (!pw && matchesAtWB pat (c :: t)) = true
      · rw [rwb_cons, if_pos hm, hpA pw] at h
        have hout : repl ++ rwb pat repl true (t.drop (pat.length - 1))
            = rwb pat repl pw (c :: t) := by
          rw [rwb_cons, if_pos hm, hpA pw]
        rcases hasOcc_append_allword_elim hrw pw _ h with ⟨hpw, hmat⟩ | h2
        · unfold matchesAtWB at hmat
          rw [Bool.and_eq_true] at hmat
          rcases rwb_match_transfer hrw hpA (n + 1) (c :: t) hl pw [] pat2 rfl
              (fun _ => Or.inl rfl) (hout ▸ hmat.1) (hout ▸ hmat.2) with ⟨h1, h2⟩ | hc
          · refine Or.inl ?_
            rw [hasOcc_cons, Bool.or_eq_true]
            refine Or.inl ?_
            rw [Bool.and_eq_true, hpw]
            refine ⟨rfl, ?_⟩
            unfold matchesAtWB
            rw [Bool.and_eq_true]
            exact ⟨h1, h2⟩
          · exact Or.inr hc
        · rw [prevOf_allword hrne hrw pw] at h2
          have hld : (t.drop (pat.length - 1)).length ≤ n := by
            rw [List.length_drop]
            omega
          rcases ih (t.drop (pat.length - 1)) hld true h2 with hocc | hc
          · refine Or.inl ?_
            rw [hasOcc_cons, hasOcc_drop_lift (pat.length - 1) t hocc (jsWord c)]
            simp
          · exact Or.inr hc
      · rw [rwb_cons, if_neg hm] at h
        rw [hasOcc_cons, Bool.or_eq_true] at h
        have hout : c :: rwb pat repl (jsWord c) t = rwb pat repl pw (c :: t) := by
          rw [rwb_cons, if_neg hm]
        rcases h with h | h
        · rw [Bool.and_eq_true] at h
          unfold matchesAtWB at h
          rw [Bool.and_eq_true] at h
          rcases rwb_match_transfer hrw hpA (n + 1) (c :: t) hl pw [] pat2 rfl
              (fun _ => Or.inl rfl) (hout ▸ h.2.1) (hout ▸ h.2.2) with ⟨h1, h2⟩ | hc
          · refine Or.inl ?_
            rw [hasOcc_cons, Bool.or_eq_true]
            refine Or.inl ?_
            rw [Bool.and_eq_true]
            refine ⟨h.1, ?_⟩
            unfold matchesAtWB
            rw [Bool.and_eq_true]
            exact ⟨h1, h2⟩
          · exact Or.inr hc
        · rcases ih t hl2 (jsWord c) h with hocc | hc
          · refine Or.inl ?_
            rw [hasOcc_cons, hocc]
            simp
          · exact Or.inr hc

theorem rwb_clean {pat repl : List Char}
    (hrw : ∀ c ∈ repl, jsWord c = true) (hrne : repl ≠ [])
    (hpA : ∀ b, prevAfter pat b = true)
    (hnc : ¬ WordClash pat repl) :
    ∀ n (s : List Char), s.length ≤ n → ∀ pw,
      hasOcc pat pw (rwb pat repl pw s) = false := by
  intro n
  induction n with
  | zero =>
    intro s hl pw
    rw [List.length_eq_zero.mp (Nat.le_zero.mp hl), rwb_nil, hasOcc_nil]
  | succ n ih =>
    intro s hl pw
    cases s with
    | nil => rw [rwb_nil, hasOcc_nil]
    | cons c t =>
      have hl2 : t.length ≤ n := by
        simp only [List.length_cons] at hl
        omega
      by_cases hm : (!pw && matchesAtWB pat (c :: t)) = true
      · rw [rwb_cons, if_pos hm, hpA pw]
        have hmm := hm
        rw [Bool.and_eq_true] at hmm
        have hmw := hmm.2
        unfold matchesAtWB at hmw
        rw [Bool.and_eq_true] at hmw
        have hpne : pat ≠ [] := by
          intro hp
          have := hpA false
          rw [hp] at this
          simp [prevAfter] at this
        have hdropct : (c :: t).drop pat.length = t.drop (pat.length - 1) := by
          have h0 : pat.length ≠ 0 := fun hz => hpne (List.length_eq_zero.mp hz)
          obtain ⟨k, hk⟩ : ∃ k, pat.length = k + 1 := ⟨pat.length - 1, by omega⟩
          rw [hk]
          simp
        have hheadt2 : headWordB (t.drop (pat.length - 1)) = false := by
          have := hmw.2
          rw [hdropct] at this
          unfold afterBOk at this
          simpa using this
        have hhead : headWordB (rwb pat repl true (t.drop (pat.length - 1))) = false := by
          rw [rwb_true_head]
          exact hheadt2
        cases hh : hasOcc pat pw
            (repl ++ rwb pat repl true (t.drop (pat.length - 1))) with
        | false => rfl
        | true =>
          exfalso
          rcases hasOcc_append_allword_elim hrw pw _ hh with ⟨hpw, hmat⟩ | h2
          · unfold matchesAtWB at hmat
            rw [Bool.and_eq_true] at hmat
            exact hnc (match_through_copy hrw (x := []) rfl (Or.inl rfl) hhead hmat.1 hmat.2)
          · rw [prevOf_allword hrne hrw pw] at h2
            have hld : (t.drop (pat.length - 1)).length ≤ n := by
              rw [List.length_drop]
              omega
            rw [ih (t.drop (pat.length - 1)) hld true] at h2
            exact absurd h2 (by simp)
      · rw [rwb_cons, if_neg hm, hasOcc_cons, Bool.or_eq_false_iff]
        refine ⟨?_, ih t hl2 (jsWord c)⟩
        cases hpw : pw with
        | true => simp
        | false =>
          cases hmt : matchesAtWB pat (c :: rwb pat repl (jsWord c) t) with
          | false => simp
          | true =>
            exfalso
            have hout : c :: rwb pat repl (jsWord c) t = rwb pat repl pw (c :: t) := by
              rw [rwb_cons, if_neg hm]
            unfold matchesAtWB at hmt
            rw [Bool.and_eq_true] at hmt
            rcases rwb_match_transfer hrw hpA (n + 1) (c :: t) hl pw [] pat rfl
                (fun _ => Or.inl rfl) (hout ▸ hmt.1) (hout ▸ hmt.2) with ⟨h1, h2⟩ | hc
            · apply hm
              rw [Bool.and_eq_true, hpw]
              refine ⟨rfl, ?_⟩
              unfold matchesAtWB
              rw [Bool.and_eq_true]
              exact ⟨h1, h2⟩
            · exact hnc hc

theorem rwb_pairScan {pat repl : List Char} {bad : Char → Char → Bool}
    (hrne : repl ≠ []) (hrw : ∀ c ∈ repl, jsWord c = true)
    (hA : ∀ a b, jsWord b = true → bad a b = false)
    (hB : ∀ a b, jsWord a = true → bad a b = false) :
    ∀ n (s : List Char), s.length ≤ n → ∀ pw, pairScan bad s = true →
      pairScan bad (rwb pat repl pw s) = true := by
  intro n
  induction n with
  | zero =>
    intro s hl pw _
    rw [List.length_eq_zero.mp (Nat.le_zero.mp hl), rwb_nil]
    rfl
  | succ n ih =>
    intro s hl pw hp
    cases s with
    | nil => rw [rwb_nil]; rfl
    | cons c t =>
      have hl2 : t.length ≤ n := by
        simp only [List.length_cons] at hl
        omega
      have hpt : pairScan bad t = true := pairScanTail hp
      by_cases hm : (!pw && matchesAtWB pat (c :: t)) = true
      · rw [rwb_cons, if_pos hm]
        rw [pairScan_append]
        refine ⟨pairScan_of_forall_snd hA (List.all_eq_true.mpr hrw), ?_, ?_⟩
        · refine ih (t.drop (pat.length - 1)) ?_ (prevAfter pat pw)
            (pairScan_drop _ hpt)
          rw [List.length_drop]
          omega
        · intro a b ha _
          exact hB a b (hrw a (getLastMem ha))
      · rw [rwb_cons, if_neg hm, pairScan_cons, Bool.and_eq_true]
        refine ⟨?_, ih t hl2 (jsWord c) hpt⟩
        cases t with
        | nil => rw [rwb_nil]; rfl
        | cons d t2 =>
          obtain ⟨hd, rest2, hshape, hcase⟩ := rwb_cons_shape pat repl hrne (jsWord c) d t2
          rw [hshape]
          simp only [List.head?_cons]
          rcases hcase with hcase | hcase
          · subst hcase
            have : bad c hd = false := by
              unfold pairScan at hp
              rw [Bool.and_eq_true] at hp
              simpa using hp.1
            rw [this]
            rfl
          · rw [hA c hd (hrw hd hcase)]
            rfl

theorem rwb_mem {pat repl : List Char} :
    ∀ n (s : List Char), s.length ≤ n → ∀ pw c, c ∈ rwb pat repl pw s →
      c ∈ s ∨ c ∈ repl := by
  intro n
  induction n with
  | zero =>
    intro s hl pw c hc
    rw [List.length_eq_zero.mp (Nat.le_zero.mp hl), rwb_nil] at hc
    exact absurd hc (by simp)
  | succ n ih =>
    intro s hl pw c hc
    cases s with
    | nil =>
      rw [rwb_nil] at hc
      exact absurd hc (by simp)
    | cons d t =>
      have hl2 : t.length ≤ n := by
        simp only [List.length_cons] at hl
        omega
      by_cases hm : (!pw && matchesAtWB pat (d :: t)) = true
      · rw [rwb_cons, if_pos hm] at hc
        rcases List.mem_append.mp hc with hc | hc
        · exact Or.inr hc
        · have hld : (t.drop (pat.length - 1)).length ≤ n := by
            rw [List.length_drop]
            omega
          rcases ih (t.drop (pat.length - 1)) hld _ c hc with hc2 | hc2
          · exact Or.inl (List.mem_cons_of_mem d (List.mem_of_mem_drop hc2))
          · exact Or.inr hc2
      · rw [rwb_cons, if_neg hm] at hc
        rcases List.mem_cons.mp hc with hc | hc
        · exact Or.inl (hc ▸ List.mem_cons_self d t)
        · rcases ih t hl2 (jsWord d) c hc with hc2 | hc2
          · exact Or.inl (List.mem_cons_of_mem d hc2)
          · exact Or.inr hc2

theorem allWsSpace_rwb {pat repl : List Char}
    (hrw : ∀ c ∈ repl, jsWord c = true) {s : List Char} (pw : Bool)
    (hs : allWsSpace s = true) : allWsSpace (rwb pat repl pw s) = true := by
  unfold allWsSpace at hs ⊢
  rw [List.all_eq_true] at hs ⊢
  intro c hc
  rcases rwb_mem s.length s le_rfl pw c hc with h | h
  · exact hs c h
  · rw [jsWs_of_jsWord (hrw c h)]
    rfl

theorem fixComma_mem : ∀ n (l : List Char), l.length ≤ n → ∀ c, c ∈ fixComma l → c ∈ l := by
  intro n
  induction n with
  | zero =>
    intro l hl c hc
    rw [List.length_eq_zero.mp (Nat.le_zero.mp hl), fixComma_nil] at hc
    exact absurd hc (by simp)
  | succ n ih =>
    intro l hl c hc
    cases l with
    | nil =>
      rw [fixComma_nil] at hc
      exact absurd hc (by simp)
    | cons a t =>
      have hl2 : t.length ≤ n := by
        simp only [List.length_cons] at hl
        omega
      have hdws := (List.dropWhile_sublist (l := t) jsWs).length_le
      by_cases ha : jsWs a = true
      · by_cases hcm : ∃ u, t.dropWhile jsWs = ',' :: u
        · obtain ⟨u, hu⟩ := hcm
          rw [fixComma_cons_ws_comma ha hu] at hc
          have hsub : ∀ x, x ∈ (',' :: u) → x ∈ t := by
            intro x hx
            rw [← hu] at hx
            exact (List.dropWhile_sublist (l := t) jsWs).mem hx
          rcases List.mem_cons.mp hc with hc | hc
          · exact List.mem_cons_of_mem a (hsub c (hc ▸ List.mem_cons_self _ _))
          · have hlu : u.length ≤ n := by
              rw [hu] at hdws
              simp only [List.length_cons] at hdws
              omega
            exact List.mem_cons_of_mem a
              (hsub c (List.mem_cons_of_mem _ (ih u hlu c hc)))
        · rw [fixComma_cons_ws_other ha (by push_neg at hcm; exact fun u => hcm u)] at hc
          rcases List.mem_append.mp hc with hc | hc
          · rcases List.mem_cons.mp hc with hc | hc
            · exact hc ▸ List.mem_cons_self _ _
            · exact List.mem_cons_of_mem a ((List.takeWhile_sublist (p := jsWs)).mem hc)
          · have hld : (t.dropWhile jsWs).length ≤ n := by omega
            exact List.mem_cons_of_mem a
              ((List.dropWhile_sublist (l := t) jsWs).mem (ih _ hld c hc))
      · rw [fixComma_cons_not t (by simpa using ha)] at hc
        rcases List.mem_cons.mp hc with hc | hc
        · exact hc ▸ List.mem_cons_self _ _
        · exact List.mem_cons_of_mem a (ih t hl2 c hc)

theorem allWsSpace_fixComma {l : List Char} (h : allWsSpace l = true) :
    allWsSpace (fixComma l) = true := by
  unfold allWsSpace at h ⊢
  rw [List.all_eq_true] at h ⊢
  exact fun c hc => h c (fixComma_mem l.length l le_rfl c hc)

theorem pairScan_wsPair_fixComma : ∀ n (l : List Char), l.length ≤ n →
    pairScan wsPair l = true → pairScan wsPair (fixComma l) = true := by
  intro n
  induction n with
  | zero =>
    intro l hl _
    rw [List.length_eq_zero.mp (Nat.le_zero.mp hl), fixComma_nil]
    rfl
  | succ n ih =>
    intro l hl hp
    cases l with
    | nil => rw [fixComma_nil]; rfl
    | cons a t =>
      have hl2 : t.length ≤ n := by
        simp only [List.length_cons] at hl
        omega
      by_cases ha : jsWs a = true
      · cases t with
        | nil =>
          rw [fixComma_cons_ws_other ha (by simp)]
          simp only [List.takeWhile_nil, List.dropWhile_nil, fixComma_nil]
          rfl
        | cons d t2 =>
          rw [pairScan_cons] at hp
          simp only [List.head?_cons] at hp
          rw [Bool.and_eq_true] at hp
          have hd : jsWs d = false := by
            have := hp.1
            unfold wsPair at this
            rw [ha] at this
            simpa using this
          have hdrop : (d :: t2).dropWhile jsWs = d :: t2 := by
            rw [List.dropWhile_cons, if_neg (by simp [hd])]
          by_cases hdc : d = ','
          · subst hdc
            rw [fixComma_cons_ws_comma ha (by rw [hdrop])]
            rw [pairScan_cons, Bool.and_eq_true]
            refine ⟨?_, ih t2 (by simp only [List.length_cons] at hl2; omega)
              (pairScanTail hp.2)⟩
            cases hh : (fixComma t2).head? with
            | none => rfl
            | some b =>
              unfold wsPair
              rw [comma_not_jsWs]
              rfl
          · have hother : ∀ u, (d :: t2).dropWhile jsWs ≠ ',' :: u := by
              intro u hu
              rw [hdrop] at hu
              exact hdc (List.cons.inj hu).1
            rw [fixComma_cons_ws_other ha hother, hdrop]
            have htake : (d :: t2).takeWhile jsWs = [] := by
              rw [List.takeWhile_cons, if_neg (by simp [hd])]
            rw [htake]
            rw [fixComma_cons_not t2 hd]
            rw [List.cons_append, List.nil_append]
            rw [pairScan_cons]
            simp only [List.head?_cons]
            rw [Bool.and_eq_true]
            refine ⟨by simpa using hp.1, ?_⟩
            rw [← fixComma_cons_not t2 hd]
            exact ih (d :: t2) hl2 hp.2
      · rw [fixComma_cons_not t (by simpa using ha)]
        rw [pairScan_cons, Bool.and_eq_true]
        refine ⟨?_, ih t hl2 (pairScanTail hp)⟩
        cases hh : (fixComma t).head? with
        | none => rfl
        | some b =>
          unfold wsPair
          rw [(by simpa using ha : jsWs a = false)]
          rfl


theorem wcGo_of_decomp (rl : List Char) : ∀ (x r : List Char) (edgeOk : Bool),
    (x = [] → edgeOk = true) →
    (∀ c, x.getLast? = some c → jsWord c = false) →
    (r = [] ∨ ∃ c, r.head? = some c ∧ jsWord c = false) →
    wordClashGo rl edgeOk (x ++ rl ++ r) = true := by
  intro x
  induction x with
  | nil =>
    intro r edgeOk he _ hr
    simp only [List.nil_append]
    cases hrl : rl ++ r with
    | nil =>
      have h12 := List.append_eq_nil.mp hrl
      rw [wordClashGo, he rfl, h12.1]
      rfl
    | cons c t =>
      rw [wordClashGo, Bool.or_eq_true]
      left
      rw [Bool.and_eq_true, Bool.and_eq_true]
      refine ⟨⟨he rfl, ?_⟩, ?_⟩
      · rw [← hrl]
        exact (startsWithSeq_iff (rl ++ r) rl).mpr ⟨r, rfl⟩
      · have hdrop : (c :: t).drop rl.length = r := by
          rw [← hrl, List.drop_left]
        rw [hdrop]
        rcases hr with hr | ⟨c2, hc2, hw2⟩
        · subst hr
          rfl
        · cases r with
          | nil => simp at hc2
          | cons c3 r3 =>
            simp only [List.head?_cons, Option.some.injEq] at hc2
            subst hc2
            simp [hw2]
  | cons a x2 ih =>
    intro r edgeOk he hlast hr
    simp only [List.cons_append]
    rw [wordClashGo, Bool.or_eq_true]
    right
    refine ih r (!jsWord a) ?_ ?_ hr
    · intro hx2
      subst hx2
      rw [hlast a (by simp)]
      rfl
    · intro c hc
      apply hlast c
      cases x2 with
      | nil => simp at hc
      | cons b x3 =>
        rw [List.getLast?_cons_cons]
        exact hc

theorem wordClash_sound {patP repl : List Char} (h : WordClash patP repl) :
    wordClashB patP repl = true := by
  obtain ⟨x, q, r, hdec, hq, hx, hr⟩ := h
  subst hq
  unfold wordClashB
  rw [hdec]
  apply wcGo_of_decomp
  · intro _
    rfl
  · intro c hc
    rcases hx with hx | ⟨c0, hc0, hw0⟩
    · rw [hx] at hc
      simp at hc
    · rw [hc0] at hc
      exact (Option.some.inj hc) ▸ hw0
  · exact hr

theorem applyRules_nil (s : List Char) : applyRules [] s = s := rfl

theorem applyRules_cons (r : List Char × List Char) (rs : List (List Char × List Char))
    (s : List Char) : applyRules (r :: rs) s = applyRules rs (rwb r.1 r.2 false s) := rfl

theorem ruleOk_fields {r : List Char × List Char} (h : ruleOkB r = true) :
    r.2 ≠ [] ∧ (∀ c ∈ r.2, jsWord c = true) ∧ (∀ b, prevAfter r.1 b = true) := by
  unfold ruleOkB at h
  rw [Bool.and_eq_true, Bool.and_eq_true, Bool.and_eq_true, Bool.and_eq_true] at h
  obtain ⟨⟨⟨⟨h1, h2⟩, h3⟩, h4⟩, h5⟩ := h
  refine ⟨?_, ?_, ?_⟩
  · intro he
    rw [he] at h2
    simp at h2
  · exact fun c hc => List.all_eq_true.mp h5 c hc
  · intro b
    unfold prevAfter
    cases hg : r.1.getLast? with
    | none =>
      rw [hg] at h4
      simp at h4
    | some p =>
      rw [hg] at h4
      exact h4

theorem applyRules_pairScan {bad : Char → Char → Bool}
    (hA : ∀ a b, jsWord b = true → bad a b = false)
    (hB : ∀ a b, jsWord a = true → bad a b = false) :
    ∀ (rules : List (List Char × List Char)), (∀ r ∈ rules, ruleOkB r = true) →
      ∀ s, pairScan bad s = true → pairScan bad (applyRules rules s) = true := by
  intro rules
  induction rules with
  | nil =>
    intro _ s hs
    rw [applyRules_nil]
    exact hs
  | cons r rs ih =>
    intro hok s hs
    rw [applyRules_cons]
    obtain ⟨hrne, hrw, -⟩ := ruleOk_fields (hok r (List.mem_cons_self _ _))
    exact ih (fun r2 h2 => hok r2 (List.mem_cons_of_mem _ h2)) _
      (rwb_pairScan hrne hrw hA hB s.length s le_rfl false hs)

theorem applyRules_allWsSpace :
    ∀ (rules : List (List Char × List Char)), (∀ r ∈ rules, ruleOkB r = true) →
      ∀ s, allWsSpace s = true → allWsSpace (applyRules rules s) = true := by
  intro rules
  induction rules with
  | nil =>
    intro _ s hs
    rw [applyRules_nil]
    exact hs
  | cons r rs ih =>
    intro hok s hs
    rw [applyRules_cons]
    obtain ⟨-, hrw, -⟩ := ruleOk_fields (hok r (List.mem_cons_self _ _))
    exact ih (fun r2 h2 => hok r2 (List.mem_cons_of_mem _ h2)) _
      (allWsSpace_rwb hrw false hs)

theorem applyRules_preserve_noOcc {pat2 : List Char} :
    ∀ (rules : List (List Char × List Char)), (∀ r ∈ rules, ruleOkB r = true) →
      (∀ r ∈ rules, wordClashB pat2 r.2 = false) →
      ∀ s, hasOcc pat2 false s = false →
        hasOcc pat2 false (applyRules rules s) = false := by
  intro rules
  induction rules with
  | nil =>
    intro _ _ s hs
    rw [applyRules_nil]
    exact hs
  | cons r rs ih =>
    intro hok hcl s hs
    rw [applyRules_cons]
    obtain ⟨hrne, hrw, hpA⟩ := ruleOk_fields (hok r (List.mem_cons_self _ _))
    refine ih (fun r2 h2 => hok r2 (List.mem_cons_of_mem _ h2))
      (fun r2 h2 => hcl r2 (List.mem_cons_of_mem _ h2)) _ ?_
    cases hh : hasOcc pat2 false (rwb r.1 r.2 false s) with
    | false => rfl
    | true =>
      exfalso
      rcases rwb_hasOcc_transfer hrw hrne hpA s.length s le_rfl false hh with h2 | h2
      · rw [hs] at h2
        exact absurd h2 (by simp)
      · have := wordClash_sound h2
        rw [hcl r (List.mem_cons_self _ _)] at this
        exact absurd this (by simp)

theorem applyRules_noOcc :
    ∀ (rules : List (List Char × List Char)), (∀ r ∈ rules, ruleOkB r = true) →
      (∀ r1 ∈ rules, ∀ r2 ∈ rules, wordClashB r1.1 r2.2 = false) →
      ∀ s, ∀ r ∈ rules, hasOcc r.1 false (applyRules rules s) = false := by
  intro rules
  induction rules with
  | nil =>
    intro _ _ s r hr
    exact absurd hr (by simp)
  | cons r0 rs ih =>
    intro hok hcl s r hr
    rw [applyRules_cons]
    obtain ⟨hrne, hrw, hpA⟩ := ruleOk_fields (hok r0 (List.mem_cons_self _ _))
    rcases List.mem_cons.mp hr with hr | hr
    · subst hr
      refine applyRules_preserve_noOcc rs
        (fun r2 h2 => hok r2 (List.mem_cons_of_mem _ h2))
        (fun r2 h2 => hcl r (List.mem_cons_self _ _) r2 (List.mem_cons_of_mem _ h2)) _ ?_
      have hnc : ¬ WordClash r.1 r.2 := by
        intro hW
        have := wordClash_sound hW
        rw [hcl r (List.mem_cons_self _ _) r (List.mem_cons_self _ _)] at this
        exact absurd this (by simp)
      exact rwb_clean hrw hrne hpA hnc s.length s le_rfl false
    · exact ih (fun r2 h2 => hok r2 (List.mem_cons_of_mem _ h2))
        (fun r1 h1 r2 h2 => hcl r1 (List.mem_cons_of_mem _ h1) r2 (List.mem_cons_of_mem _ h2))
        _ r hr

theorem applyRules_id :
    ∀ (rules : List (List Char × List Char)) (s : List Char),
      (∀ r ∈ rules, hasOcc r.1 false s = false) → applyRules rules s = s := by
  intro rules
  induction rules with
  | nil => intro s _; rfl
  | cons r0 rs ih =>
    intro s hno
    rw [applyRules_cons, rwb_id (hno r0 (List.mem_cons_self _ _))]
    exact ih s (fun r2 h2 => hno r2 (List.mem_cons_of_mem _ h2))

theorem prevOf_allWs {a : List Char} (h : a.all jsWs = true) :
    prevOf a false = false := by
  unfold prevOf
  cases hg : a.getLast? with
  | none => rfl
  | some c => exact jsWord_of_jsWs (List.all_eq_true.mp h c (getLastMem hg))

theorem headWordB_allWs {b : List Char} (h : b.all jsWs = true) :
    headWordB b = false := by
  cases b with
  | nil => rfl
  | cons c t =>
    rw [headWordB_cons]
    exact jsWord_of_jsWs (List.all_eq_true.mp h c (List.mem_cons_self _ _))

theorem noOcc_jsTrim {pat2 l : List Char} (h : hasOcc pat2 false l = false) :
    hasOcc pat2 false (jsTrim l) = false := by
  cases hh : hasOcc pat2 false (jsTrim l) with
  | false => rfl
  | true =>
    exfalso
    obtain ⟨a, b, hl, ha, hb⟩ := jsTrim_decomp l
    have hlift : hasOcc pat2 false (a ++ (jsTrim l ++ b)) = true := by
      refine hasOcc_infix_lift (headWordB_allWs hb) ?_
      rw [prevOf_allWs ha]
      exact hh
    rw [← List.append_assoc, ← hl, h] at hlift
    exact absurd hlift (by simp)

theorem usAddressRules_ok : usAddressRules.all ruleOkB = true := by
  with_unfolding_all decide

theorem usAddressRules_noClash : usAddressRules.all
    (fun ri => usAddressRules.all (fun rj => !(wordClashB ri.1 rj.2))) = true := by
  with_unfolding_all decide

theorem wsPair_of_word_right : ∀ a b, jsWord b = true → wsPair a b = false := by
  intro a b hb
  unfold wsPair
  rw [jsWs_of_jsWord hb]
  simp

theorem wsPair_of_word_left : ∀ a b, jsWord a = true → wsPair a b = false := by
  intro a b ha
  unfold wsPair
  rw [jsWs_of_jsWord ha]
  simp

theorem wsCommaPair_of_word_right : ∀ a b, jsWord b = true → wsCommaPair a b = false := by
  intro a b hb
  unfold wsCommaPair
  have hbe : (b == ',') = false := by
    cases hbe : b == ',' with
    | false => rfl
    | true =>
      exfalso
      rw [show b = ',' from by simpa using hbe, comma_not_jsWord] at hb
      exact absurd hb (by simp)
  rw [hbe]
  simp

theorem wsCommaPair_of_word_left : ∀ a b, jsWord a = true → wsCommaPair a b = false := by
  intro a b ha
  unfold wsCommaPair
  rw [jsWs_of_jsWord ha]
  simp

theorem normalizeList_fix (sA : List Char)
    (hAllA : allWsSpace sA = true) (hWspA : pairScan wsPair sA = true)
    (hWscA : pairScan wsCommaPair sA = true)
    (hNo : ∀ r ∈ usAddressRules, hasOcc r.1 false sA = false) :
    jsTrim (collapseWS (applyRules usAddressRules
        (jsTrim (fixComma (collapseWS (jsTrim (collapseWS sA)))))))
      = jsTrim (collapseWS sA) := by
  have hColA : collapseWS sA = sA := collapseWS_id sA hAllA hWspA
  rw [hColA]
  have hsAll : allWsSpace (jsTrim sA) = true := allWsSpace_jsTrim hAllA
  have hsWsp : pairScan wsPair (jsTrim sA) = true := pairScan_jsTrim hWspA
  have hsWsc : pairScan wsCommaPair (jsTrim sA) = true := pairScan_jsTrim hWscA
  have hsNo : ∀ r ∈ usAddressRules, hasOcc r.1 false (jsTrim sA) = false :=
    fun r hr => noOcc_jsTrim (hNo r hr)
  have c1 : collapseWS (jsTrim sA) = jsTrim sA := collapseWS_id _ hsAll hsWsp
  have c2 : fixComma (jsTrim sA) = jsTrim sA := fixComma_id _ hsWsc
  have c3 : jsTrim (jsTrim sA) = jsTrim sA := jsTrim_id (trimmedB_jsTrim sA)
  have c4 : applyRules usAddressRules (jsTrim sA) = jsTrim sA :=
    applyRules_id _ _ hsNo
  rw [c1, c2, c3, c4, c1, c3]

/-- C4: the address normalizer of the geocode-address route is idempotent —
for every input string, `normalizeUSAddress (normalizeUSAddress raw) =
normalizeUSAddress raw`.  The proof runs the whitespace-collapse,
comma-fix, trim and rule-replacement stages a second time over the output
and shows each is the identity there: the output has single-space runs, no
whitespace before commas, no leading or trailing whitespace, and no
remaining word-bounded occurrence of any state name or street-suffix
pattern (each rule erases its own pattern and, since no replacement word
occurs word-bounded inside any pattern, later rules cannot recreate one). -/
theorem normalizeUSAddress_idem (raw : String) :
    normalizeUSAddress (normalizeUSAddress raw) = normalizeUSAddress raw := by
  have hok : ∀ r ∈ usAddressRules, ruleOkB r = true :=
    List.all_eq_true.mp usAddressRules_ok
  have hcl : ∀ r1 ∈ usAddressRules, ∀ r2 ∈ usAddressRules,
      wordClashB r1.1 r2.2 = false := by
    intro r1 h1 r2 h2
    have := List.all_eq_true.mp (List.all_eq_true.mp usAddressRules_noClash r1 h1) r2 h2
    simpa using this
  have hAll1 : allWsSpace (jsTrim (fixComma (collapseWS raw.data))) = true :=
    allWsSpace_jsTrim (allWsSpace_fixComma (allWsSpace_collapseWS _))
  have hWsp1 : pairScan wsPair (jsTrim (fixComma (collapseWS raw.data))) = true :=
    pairScan_jsTrim (pairScan_wsPair_fixComma (collapseWS raw.data).length _
      le_rfl (pairScan_wsPair_collapseWS _))
  have hWsc1 : pairScan wsCommaPair (jsTrim (fixComma (collapseWS raw.data))) = true :=
    pairScan_jsTrim (pairScan_wsComma_fixComma _)
  have hAllA := applyRules_allWsSpace usAddressRules hok _ hAll1
  have hWspA := applyRules_pairScan wsPair_of_word_right wsPair_of_word_left
    usAddressRules hok _ hWsp1
  have hWscA := applyRules_pairScan wsCommaPair_of_word_right wsCommaPair_of_word_left
    usAddressRules hok _ hWsc1
  have hNoA := applyRules_noOcc usAddressRules hok hcl
    (jsTrim (fixComma (collapseWS raw.data)))
  unfold normalizeUSAddress
  exact congrArg String.mk (normalizeList_fix _ hAllA hWspA hWscA hNoA)
